import Mathlib

/-!
Verification of the yegonesh launcher core (main.go) against its
natural-language specification.

The development shallowly embeds the program's components as executable
Lean definitions:

* `Command`, `Commands` — the data model (main.go lines 17-22); the Go
  `uint64` counter is modelled as a `Nat` together with explicit
  `% 2^64` wrap-around where the code performs arithmetic.
* `fetchExecutables` — the DirectoryScanner (lines 44-58); a directory is
  modelled as the listing `ioutil.ReadDir` would yield (`none` when the
  directory cannot be read: `ReadDir` then returns a `nil` slice whose
  traversal emits nothing).
* `scanPathDirs` / `IsInterleaving` / `sortStrings` — the PathScanner
  (lines 61-90).  Concurrent workers appending to the shared aggregate are
  modelled by quantifying over every interleaving of the per-directory
  streams (each append taken as atomic); the genuine data race of the
  unsynchronized appends is modelled separately by `RaceStep`.
* `readHistory` / `writeHistoryGo` — the HistoryStore (lines 92-136),
  including a faithful embedding of `strconv.ParseInt(s, 10, 64)`,
  `bufio.Scanner` line splitting, `strings.TrimSpace`, and the Go
  standard library's `sort.Sort` (the pre-1.19 `sort.go` algorithm:
  quicksort with median-of-three/nine pivoting, a gap-6 Shell pass plus
  insertion sort for segments of at most 12 elements, and heapsort at
  depth exhaustion), applied through `sort.Reverse(ByScore{...})`.
  Fatal aborts (`check(err)` panics and the `s[1]` index panic) are
  modelled with `Except AbortKind`.
* `multiplexMenuStreams` — the StreamMultiplexer (lines 138-160).
* `launchCommand` — the launch step (lines 205-214); `exec.LookPath` is
  an abstract resolver parameter.
-/

namespace Yegonesh

/-- Modulus of Go's `uint64`. -/
def U64MOD : Nat := 2 ^ 64

/-- The `Command` record of main.go (lines 17-20): a `Name` and a `Calls`
usage counter.  `calls` carries the numeric value of the Go `uint64`. -/
structure Command where
  name : String
  calls : Nat
deriving DecidableEq, Repr, Inhabited

/-- `Commands` (main.go line 22) is an ordered sequence of `Command`.
Go's `[]*Command` is a slice of pointers; sharing is made explicit where it
matters (`writeHistoryGo` returns the mutated sequence alongside the
written bytes). -/
abbrev Commands := List Command

/- ### Go string primitives used by the history store -/

/-- The character set of Go's `unicode.IsSpace` (what `strings.TrimSpace`
trims). -/
def goIsSpace (c : Char) : Bool :=
  c = '\t' || c = '\n' || c = '\u000B' || c = '\u000C' || c = '\r' || c = ' ' ||
  c = '\u0085' || c = '\u00A0' || c = '\u1680' ||
  ('\u2000' ≤ c && c ≤ '\u200A') ||
  c = '\u2028' || c = '\u2029' || c = '\u202F' || c = '\u205F' || c = '\u3000'

/-- Go `strings.TrimSpace`: drop leading and trailing Unicode whitespace. -/
def goTrimSpace (s : String) : String :=
  (((s.toList.dropWhile goIsSpace).reverse.dropWhile goIsSpace).reverse).asString

/-- One token of Go's `bufio.ScanLines`: a terminal `"\r"` left by a
`"\r\n"` terminator is dropped. -/
def dropCR (l : String) : String :=
  if l.toList.getLast? = some '\r' then l.toList.dropLast.asString else l

/-- Go `strings.Split(s, sep)` for a one-character separator `c`, on the
character list: splitting the empty input yields one empty fragment. -/
def splitOnChar (c : Char) : List Char → List (List Char)
  | [] => [[]]
  | a :: rest =>
      let r := splitOnChar c rest
      if a = c then [] :: r
      else (a :: r.headD []) :: r.tail

/-- Go `strings.Split(s, c)` for a one-character separator. -/
def goSplitChar (c : Char) (s : String) : List String :=
  (splitOnChar c s.toList).map List.asString

/-- The sequence of lines a `bufio.Scanner` with `ScanLines` yields on
`content`: split at `'\n'`; a final empty fragment (from a trailing
newline, or from empty input) yields no token. -/
def linesOf (content : String) : List String :=
  let ls := goSplitChar '\n' content
  (if ls.getLast? = some "" then ls.dropLast else ls).map dropCR

/-- Go `strconv.ParseInt(s, 10, 64)`: optional sign, then a nonempty run
of decimal digits, value within `Int64` range; every failure (empty,
stray characters, out of range) yields `none` — the caller's
`check(err)` turns that into a fatal panic.  On success the parsed
`int64` value is returned. -/
def goParseInt64 (s : String) : Option Int :=
  let cs := s.toList
  let signDigits : Bool × List Char :=
    match cs with
    | '+' :: r => (false, r)
    | '-' :: r => (true, r)
    | r => (false, r)
  let neg := signDigits.1
  let ds := signDigits.2
  if ds.isEmpty then none
  else if ds.all (fun c => '0' ≤ c && c ≤ '9') then
    let v : Nat := ds.foldl (fun acc c => acc * 10 + (c.toNat - 48)) 0
    let i : Int := if neg then -(v : Int) else (v : Int)
    if -(2 ^ 63) ≤ i ∧ i ≤ 2 ^ 63 - 1 then some i else none
  else none

/-- Go's conversion `uint64(calls)` on an `int64` value: two's-complement
reinterpretation, i.e. the value modulo `2^64`. -/
def toU64 (i : Int) : Nat :=
  (i % (U64MOD : Int)).toNat

/- ### DirectoryScanner (main.go lines 44-58) -/

/-- One entry of a directory listing as `ioutil.ReadDir` reports it: a
base name and the file mode (permission bits in the low 9 bits). -/
structure DirEntry where
  name : String
  mode : Nat
deriving DecidableEq, Repr

/-- The loop body of `fetchExecutables`: emit the names of the entries
whose mode has at least one `0111` execute bit set, in listing order. -/
def fetchLoop : List DirEntry → List String
  | [] => []
  | f :: fs => if f.mode &&& 0o111 ≠ 0 then f.name :: fetchLoop fs else fetchLoop fs

/-- `fetchExecutables` (main.go lines 44-58).  The argument is the listing
`ioutil.ReadDir(dir)` produces; `none` models a directory that does not
exist or cannot be read, where `ReadDir` returns a `nil` slice (the error
is discarded) and the loop emits nothing. -/
def fetchExecutables : Option (List DirEntry) → List String
  | none => []
  | some files => fetchLoop files

/- ### StreamMultiplexer (main.go lines 138-160) -/

/-- The seen-map after draining the `history` stream: insertion of each
drained name into the map (`seen[cmd] = true`), modelled as a list of
keys. -/
def seenOf (history : List String) : List String :=
  history.foldl (fun s cmd => if s.contains cmd then s else cmd :: s) []

/-- `multiplexMenuStreams` (main.go lines 138-160): drain `history` first,
emitting every name and recording it in `seen`; then drain `commands`,
emitting only names absent from `seen`. -/
def multiplexMenuStreams (history commands : List String) : List String :=
  history ++ commands.filter (fun cmd => !(seenOf history).contains cmd)

/-- `historyNameStream` (main.go lines 162-171): project a `Commands`
sequence to its names, in order. -/
def historyNameStream (commands : Commands) : List String :=
  commands.map Command.name

/- ### HistoryStore write (main.go lines 116-136) -/

/-- One record as `fmt.Fprintf(f, "%d\t%s\n", ...)` renders it. -/
def histLine (c : Command) : String :=
  toString c.calls ++ "\t" ++ c.name ++ "\n"

/-- The loop of `writeHistory` (main.go lines 124-134): traverse the
commands in order; a command whose name equals the current `lastCommand`
has its `Calls` incremented (uint64 wrap-around) and clears
`lastCommand`; every command is written; if `lastCommand` is still
nonempty at the end a fresh `Calls = 1` record is written (but not added
to the in-memory sequence).  Returns the mutated sequence together with
the bytes written. -/
def writeHistoryAux : Commands → String → Commands × String
  | [], lastCommand =>
      ([], if lastCommand ≠ "" then histLine ⟨lastCommand, 1⟩ else "")
  | c :: rest, lastCommand =>
      let hit := c.name = lastCommand
      let c' := if hit then { c with calls := (c.calls + 1) % U64MOD } else c
      let next := writeHistoryAux rest (if hit then "" else lastCommand)
      (c' :: next.1, histLine c' ++ next.2)

/-- `writeHistory` (main.go lines 116-136): the file is created
(truncated) and rewritten in full.  First component: the caller's
in-memory sequence after the call (the `*Command` targets are mutated in
place); second component: the full file content written. -/
def writeHistoryGo (commands : Commands) (lastCommand : String) : Commands × String :=
  writeHistoryAux commands lastCommand

/-- Specification-level increment: bump the `Calls` of the first command
whose name is `target`, leave everything else untouched (claim C2/C10
wording). -/
def bumpFirst : Commands → String → Commands
  | [], _ => []
  | c :: rest, target =>
      if c.name = target then { c with calls := (c.calls + 1) % U64MOD } :: rest
      else c :: bumpFirst rest target

/-- Modelled from the spec (claim C2 wording): every command, the first
match incremented, is written in its current order; a missing match
appends a fresh `Calls = 1` record after all existing entries. -/
def specWriteFile (commands : Commands) (lastLaunched : String) : String :=
  String.join ((bumpFirst commands lastLaunched).map histLine) ++
    (if commands.any (fun c => c.name == lastLaunched) then "" else histLine ⟨lastLaunched, 1⟩)

/- ### The Go standard library sort used by `readHistory` (main.go line 111)

`sort.Sort(sort.Reverse(ByScore{history}))` runs the Go (pre-1.19)
`sort.go` quicksort over the slice with the comparator
`Less(i, j) = history[j].Calls < history[i].Calls` (the reversal of
`ByScore.Less`, main.go lines 32-36).  The functions below transcribe
that algorithm one-for-one, specialized to this single `sort.Interface`
instance: indices become `Nat`, `data.Less(i, j)` becomes
`revByScoreLess (getC d i) (getC d j)`, and `data.Swap(i, j)` becomes
`swapL d i j`.  Loops are encoded as structural recursion on an explicit
iteration count; where a Go loop's trip count is not fixed in advance the
count is a proven-sufficient upper bound (the recursion is exhausted only
beyond the loop's real exit, so the encoding agrees with the loop).
Index arithmetic is `Nat` arithmetic; every subtraction executed on the
reachable states is proven non-underflowing where it matters. -/

/-- The element comparator realized by `sort.Reverse(ByScore{..})`:
`Less(i, j)` holds when element `j` has strictly fewer calls than
element `i`. -/
def revByScoreLess (x y : Command) : Bool :=
  decide (y.calls < x.calls)

/-- Read index `i` of the slice (in-range on all reachable states; Go
would panic out of range). -/
def getC (d : Commands) (i : Nat) : Command :=
  d.getD i default

/-- `data.Swap(i, j)` on the slice. -/
def swapL (d : Commands) (i j : Nat) : Commands :=
  (d.set i (getC d j)).set j (getC d i)

/-- Inner loop of `insertionSort`: `for ; j > a && Less(j, j-1); j--`,
swapping `j` with `j-1`; structural recursion on `j`. -/
def insInner (a : Nat) : Commands → Nat → Commands
  | d, 0 => d
  | d, j + 1 =>
      if decide (a < j + 1) && revByScoreLess (getC d (j + 1)) (getC d j) then
        insInner a (swapL d (j + 1) j) j
      else d

/-- Outer loop of `insertionSort`: `for i := a+1; i < b; i++`, with the
remaining trip count as the recursion fuel. -/
def insOuter (a : Nat) : Commands → Nat → Nat → Commands
  | d, _, 0 => d
  | d, i, k + 1 => insOuter a (insInner a d i) (i + 1) k

/-- Go `insertionSort(data, a, b)`. -/
def insertionSortGo (d : Commands) (a b : Nat) : Commands :=
  insOuter a d (a + 1) (b - (a + 1))

/-- The gap-6 Shell pass of `quickSort`'s small-segment branch:
`for i := a+6; i < b; i++ { if Less(i, i-6) { Swap(i, i-6) } }`. -/
def shellLoop : Commands → Nat → Nat → Commands
  | d, _, 0 => d
  | d, i, k + 1 =>
      shellLoop (if revByScoreLess (getC d i) (getC d (i - 6)) then swapL d i (i - 6) else d)
        (i + 1) k

/-- The Shell pass over segment `[a, b)`. -/
def shellPassGo (d : Commands) (a b : Nat) : Commands :=
  shellLoop d (a + 6) (b - (a + 6))

/-- Go `siftDown(data, lo, hi, first)` with `root` the current node; the
fuel only bounds the iteration count (each step at least doubles
`root`, so any fuel of at least `hi + 1` is beyond the real exit). -/
def siftDownGo : Commands → Nat → Nat → Nat → Nat → Commands
  | d, _, _, _, 0 => d
  | d, root, hi, first, fuel + 1 =>
      let child := 2 * root + 1
      if child ≥ hi then d
      else
        let child :=
          if decide (child + 1 < hi) &&
              revByScoreLess (getC d (first + child)) (getC d (first + child + 1)) then
            child + 1
          else child
        if !revByScoreLess (getC d (first + root)) (getC d (first + child)) then d
        else siftDownGo (swapL d (first + root) (first + child)) child hi first fuel

/-- First loop of `heapSort`: `for i := (hi-1)/2; i >= 0; i--`,
building the heap; recursion on `i` (the loop runs down to 0
inclusively). -/
def heapBuild : Commands → Nat → Nat → Nat → Commands
  | d, hi, first, 0 => siftDownGo d 0 hi first (hi + 1)
  | d, hi, first, i + 1 => heapBuild (siftDownGo d (i + 1) hi first (hi + 1)) hi first i

/-- One iteration of `heapSort`'s second loop at index `i`:
`Swap(first, first+i); siftDown(data, lo, i, first)`. -/
def heapPopStep (d : Commands) (first i : Nat) : Commands :=
  siftDownGo (swapL d first (first + i)) 0 i first (i + 1)

/-- Second loop of `heapSort`: `for i := hi-1; i >= 0; i--`, run from
`i` down to 0 inclusively. -/
def heapPop : Commands → Nat → Nat → Commands
  | d, first, 0 => heapPopStep d first 0
  | d, first, i + 1 => heapPop (heapPopStep d first (i + 1)) first i

/-- Go `heapSort(data, a, b)`.  (With `hi = 0` the second Go loop starts
at `i = -1` and does not run; `hi = 0` is guarded since `Nat`
subtraction would otherwise start it at 0.) -/
def heapSortGo (d : Commands) (a b : Nat) : Commands :=
  let hi := b - a
  let d1 := heapBuild d hi a ((hi - 1) / 2)
  if hi = 0 then d1 else heapPop d1 a (hi - 1)

/-- Go `medianOfThree(data, m1, m0, m2)`: sort the three elements so that
`data[m0] <= data[m1] <= data[m2]` holds under the comparator. -/
def medianOfThree (d : Commands) (m1 m0 m2 : Nat) : Commands :=
  let d := if revByScoreLess (getC d m1) (getC d m0) then swapL d m1 m0 else d
  if revByScoreLess (getC d m2) (getC d m1) then
    let d := swapL d m2 m1
    if revByScoreLess (getC d m1) (getC d m0) then swapL d m1 m0 else d
  else d

/-- `doPivot`'s opening scan: `for ; a < c && Less(a, pivot); a++`. -/
def dpScanA (d : Commands) (c pivot : Nat) : Nat → Nat → Nat
  | a, 0 => a
  | a, fuel + 1 =>
      if decide (a < c) && revByScoreLess (getC d a) (getC d pivot) then
        dpScanA d c pivot (a + 1) fuel
      else a

/-- `doPivot` main-loop scan: `for ; b < c && !Less(pivot, b); b++`. -/
def dpScanB (d : Commands) (c pivot : Nat) : Nat → Nat → Nat
  | b, 0 => b
  | b, fuel + 1 =>
      if decide (b < c) && !revByScoreLess (getC d pivot) (getC d b) then
        dpScanB d c pivot (b + 1) fuel
      else b

/-- `doPivot` main-loop scan: `for ; b < c && Less(pivot, c-1); c--`. -/
def dpScanC (d : Commands) (b pivot : Nat) : Nat → Nat → Nat
  | c, 0 => c
  | c, fuel + 1 =>
      if decide (b < c) && revByScoreLess (getC d pivot) (getC d (c - 1)) then
        dpScanC d b pivot (c - 1) fuel
      else c

/-- `doPivot`'s main partition loop; returns the slice and the final
`b` and `c`. -/
def dpMainLoop (pivot : Nat) : Commands → Nat → Nat → Nat → Commands × Nat × Nat
  | d, b, c, 0 => (d, b, c)
  | d, b, c, fuel + 1 =>
      let b' := dpScanB d c pivot b (c - b + 1)
      let c' := dpScanC d b' pivot c (c - b' + 1)
      if b' ≥ c' then (d, b', c')
      else dpMainLoop pivot (swapL d b' (c' - 1)) (b' + 1) (c' - 1) fuel

/-- `doPivot` protect-loop scan: `for ; a < b && !Less(b-1, pivot); b--`. -/
def dpProtScanB (d : Commands) (a pivot : Nat) : Nat → Nat → Nat
  | b, 0 => b
  | b, fuel + 1 =>
      if decide (a < b) && !revByScoreLess (getC d (b - 1)) (getC d pivot) then
        dpProtScanB d a pivot (b - 1) fuel
      else b

/-- `doPivot` protect-loop scan: `for ; a < b && Less(a, pivot); a++`. -/
def dpProtScanA (d : Commands) (b pivot : Nat) : Nat → Nat → Nat
  | a, 0 => a
  | a, fuel + 1 =>
      if decide (a < b) && revByScoreLess (getC d a) (getC d pivot) then
        dpProtScanA d b pivot (a + 1) fuel
      else a

/-- `doPivot`'s duplicate-protection loop; returns the slice and the
final `b`. -/
def dpProtLoop (pivot : Nat) : Commands → Nat → Nat → Nat → Commands × Nat
  | d, _, b, 0 => (d, b)
  | d, a, b, fuel + 1 =>
      let b' := dpProtScanB d a pivot b (b - a + 1)
      let a' := dpProtScanA d b' pivot a (b' - a + 1)
      if a' ≥ b' then (d, b')
      else dpProtLoop pivot (swapL d a' (b' - 1)) (a' + 1) (b' - 1) fuel

/-- The duplicate-testing block of `doPivot` (run only when
`!protect && hi-c < (hi-lo)/4`): counts points equal to the pivot,
moving two of them; returns the slice, the new `b` and `c`, and `dups`. -/
def dpDups (d : Commands) (m pivot b c hi : Nat) : Commands × Nat × Nat × Nat :=
  let t1 :=
    if !revByScoreLess (getC d pivot) (getC d (hi - 1)) then (swapL d c (hi - 1), c + 1, 1)
    else (d, c, 0)
  let d1 := t1.1
  let c1 := t1.2.1
  let dups1 := t1.2.2
  let t2 :=
    if !revByScoreLess (getC d1 (b - 1)) (getC d1 pivot) then (b - 1, dups1 + 1)
    else (b, dups1)
  let b1 := t2.1
  let dups2 := t2.2
  let t3 :=
    if !revByScoreLess (getC d1 m) (getC d1 pivot) then (swapL d1 m (b1 - 1), b1 - 1, dups2 + 1)
    else (d1, b1, dups2)
  (t3.1, t3.2.1, c1, t3.2.2)

/-- Go `doPivot(data, lo, hi)`: median-of-three (or Tukey ninther)
pivoting followed by the partition dance; returns the slice and
`(midlo, midhi)`. -/
def doPivotGo (d : Commands) (lo hi : Nat) : Commands × Nat × Nat :=
  let m := (lo + hi) / 2
  let d :=
    if hi - lo > 40 then
      let s := (hi - lo) / 8
      let d := medianOfThree d lo (lo + s) (lo + 2 * s)
      let d := medianOfThree d m (m - s) (m + s)
      medianOfThree d (hi - 1) (hi - 1 - s) (hi - 1 - 2 * s)
    else d
  let d := medianOfThree d lo m (hi - 1)
  let pivot := lo
  let a := dpScanA d (hi - 1) pivot (lo + 1) (hi - 1 + 1)
  let r := dpMainLoop pivot d a (hi - 1) (hi - 1 + 1)
  let d := r.1
  let b := r.2.1
  let c := r.2.2
  let prot0 := decide (hi - c < 5)
  let tryDups := !prot0 && decide (hi - c < (hi - lo) / 4)
  let t := if tryDups then dpDups d m pivot b c hi else (d, b, c, 0)
  let d := t.1
  let b := t.2.1
  let c := t.2.2.1
  let dups := t.2.2.2
  let protect := prot0 || (tryDups && decide (dups > 1))
  let fin := if protect then dpProtLoop pivot d a b (b + 1) else (d, b)
  let d := fin.1
  let b := fin.2
  let d := swapL d pivot (b - 1)
  (d, b - 1, c)

/-- Go `quickSort(data, a, b, maxDepth)`; the `for b-a > 12` loop and the
recursion are both captured by the fuel-indexed recursion (any fuel of at
least `b - a + 1` is beyond every loop exit). -/
def quickSortGo : Nat → Commands → Nat → Nat → Nat → Commands
  | 0, d, _, _, _ => d
  | fuel + 1, d, a, b, maxDepth =>
      if b - a > 12 then
        if maxDepth = 0 then heapSortGo d a b
        else
          let r := doPivotGo d a b
          let d := r.1
          let mlo := r.2.1
          let mhi := r.2.2
          if mlo - a < b - mhi then
            quickSortGo fuel (quickSortGo fuel d a mlo (maxDepth - 1)) mhi b (maxDepth - 1)
          else
            quickSortGo fuel (quickSortGo fuel d mhi b (maxDepth - 1)) a mlo (maxDepth - 1)
      else if b - a > 1 then insertionSortGo (shellPassGo d a b) a b
      else d

/-- Go `maxDepth(n)`: twice the bit length of `n` (the fuel `n + 1`
is beyond the halving loop's exit). -/
def bitLenAux : Nat → Nat → Nat
  | _, 0 => 0
  | i, fuel + 1 => if i = 0 then 0 else bitLenAux (i / 2) fuel + 1

/-- Go `maxDepth(n)` (main sort entry, sort.go). -/
def goMaxDepth (n : Nat) : Nat :=
  2 * bitLenAux n (n + 1)

/-- `sort.Sort(sort.Reverse(ByScore{l}))` as run by `readHistory`
(main.go line 111). -/
def commandSortSort (l : Commands) : Commands :=
  quickSortGo (l.length + 1) l 0 l.length (goMaxDepth l.length)

/-- The segment `[a, b)` of the slice, as a list — used to state what a
sorting pass may and may not touch. -/
def seg (d : Commands) (a b : Nat) : List Command :=
  (d.drop a).take (b - a)

/-- The segment `[a, b)` is sorted in the order `sort.Reverse(ByScore)`
establishes: adjacent elements have non-increasing `Calls`. -/
def SortedSeg (d : Commands) (a b : Nat) : Prop :=
  ∀ i, a ≤ i → i + 1 < b → (getC d (i + 1)).calls ≤ (getC d i).calls

/-- The window `[first, first + hi)` satisfies the heap property
`siftDown` maintains, for every parent index of at least `t`: a parent
never sorts after a child (its `Calls` never exceed a child's). -/
def HeapFrom (d : Commands) (first hi t : Nat) : Prop :=
  ∀ r c, t ≤ r → c < hi → (c = 2 * r + 1 ∨ c = 2 * r + 2) →
    (getC d (first + r)).calls ≤ (getC d (first + c)).calls

/- ### HistoryStore read (main.go lines 92-114) -/

/-- How a fatal abort of `readHistory` arises: `check(err)` panicking on
a count that does not parse, or the `s[1]` access panicking when the
line has no second tab-separated field. -/
inductive AbortKind
  | parseFailure
  | indexOutOfRange
deriving DecidableEq, Repr

/-- The body of `readHistory`'s scan loop (main.go lines 103-107) on one
line: trim, split at tabs, parse the count (`check` aborts on failure),
then read the name from field 1 (aborting when it does not exist). -/
def parseHistLine (line : String) : Except AbortKind Command :=
  let s := goSplitChar '\t' (goTrimSpace line)
  match goParseInt64 (s.headD "") with
  | none => .error .parseFailure
  | some v =>
      match s[1]? with
      | none => .error .indexOutOfRange
      | some nm => .ok ⟨nm, toU64 v⟩

/-- `readHistory` (main.go lines 92-114).  The argument is the file
content, `none` when `os.Open` fails (a missing file), in which case the
function returns `nil` — the empty sequence.  Otherwise every line is
parsed in order (the first bad line aborts) and the result is sorted
with `sort.Sort(sort.Reverse(ByScore{history}))`. -/
def readHistory : Option String → Except AbortKind Commands
  | none => .ok []
  | some content => do
      let cmds ← (linesOf content).mapM parseHistLine
      pure (commandSortSort cmds)

/-- Modelled from the spec (claim C3 wording): the parsed commands
sorted by `Calls` descending with ties kept in original file order — a
stable descending sort. -/
def specStableSortDesc (l : Commands) : Commands :=
  l.insertionSort (fun x y => y.calls ≤ x.calls)

/- ### PathScanner (main.go lines 61-90) -/

/-- Lexicographic `≤` on character lists by code point — for valid
UTF-8, exactly Go's byte-wise string order. -/
def charListLe : List Char → List Char → Bool
  | [], _ => true
  | _ :: _, [] => false
  | a :: as, b :: bs =>
      if a.toNat < b.toNat then true
      else if b.toNat < a.toNat then false
      else charListLe as bs

/-- Go's `s <= t` on strings (byte-wise lexicographic). -/
def goStringLe (a b : String) : Bool :=
  charListLe a.toList b.toList

/-- Lexicographic sorting of the aggregate, `sort.Strings(commands)`
(main.go line 82).  `sort.Strings` sorts ascending in the byte-wise
(equivalently, for UTF-8, code-point-wise) lexicographic order; because
that order is antisymmetric on the values themselves, the sorted
permutation of a list of strings is unique, so every correct sorting
algorithm computes the same function and the model may use insertion
sort. -/
def sortStrings (l : List String) : List String :=
  l.insertionSort (fun a b => goStringLe a b = true)

/-- The per-directory scan streams `scanPath` spawns (main.go lines
67-78): one `fetchExecutables` stream per colon-separated component of
the search path. -/
def scanPathDirs (env : String → Option (List DirEntry)) (path : String) :
    List (List String) :=
  (goSplitChar ':' path).map (fun dir => fetchExecutables (env dir))

/-- `IsInterleaving ls out`: `out` is an order-preserving interleaving of
the streams `ls` — the possible contents of the shared `commands`
aggregate after all workers finish, when each worker's append is taken
as atomic (the unsynchronized reality of those appends is modelled by
`RaceStep`). -/
inductive IsInterleaving : List (List String) → List String → Prop
  | nil (ls : List (List String)) : (∀ l ∈ ls, l = []) → IsInterleaving ls []
  | step (ls : List (List String)) (i : Nat) (x : String) (rest : List String)
      (out : List String) :
      ls[i]? = some (x :: rest) →
      IsInterleaving (ls.set i rest) out →
      IsInterleaving ls (x :: out)

/-- What `scanPath` emits once `group.Wait()` returns (main.go lines
80-87): the aggregate, sorted, sent in order on the output channel.
Nothing is emitted before the barrier, so the emission is a function of
the completed aggregate. -/
def scanPathEmit (agg : List String) : List String :=
  sortStrings agg

/- ### The data race of `scanPath`'s shared aggregate (main.go lines 69-78) -/

/-- One scanning goroutine of `scanPath`: the items still to append, and
the snapshot of the shared slice it has read but not yet written back
(`commands = append(commands, item)` is a read of `commands` followed by
a write). -/
structure RaceWorker where
  loaded : Option (List String)
  queue : List String
deriving DecidableEq, Repr

/-- The shared state of `scanPath`: the `commands` slice and the
workers. -/
structure RaceSys where
  shared : List String
  workers : List RaceWorker
deriving DecidableEq, Repr

/-- Interleaved execution of the unsynchronized
`commands = append(commands, item)` statements: a worker reads the
shared slice, then writes back its private extension, losing any append
that landed in between. -/
inductive RaceStep : RaceSys → RaceSys → Prop
  | load (s : RaceSys) (i : Nat) (x : String) (q : List String) :
      s.workers[i]? = some ⟨none, x :: q⟩ →
      RaceStep s ⟨s.shared, s.workers.set i ⟨some s.shared, x :: q⟩⟩
  | store (s : RaceSys) (i : Nat) (snap : List String) (x : String) (q : List String) :
      s.workers[i]? = some ⟨some snap, x :: q⟩ →
      RaceStep s ⟨snap ++ [x], s.workers.set i ⟨none, q⟩⟩

/-- The initial state of `scanPath`'s fan-out: empty aggregate, one
worker per directory stream. -/
def raceInit (ls : List (List String)) : RaceSys :=
  ⟨[], ls.map (fun q => ⟨none, q⟩)⟩

/- ### Launch step (main.go lines 205-214) -/

/-- Go `strings.SplitN(command, " ", 2)`: split at the first space
character only; without a space the whole string is the single fragment. -/
def goSplitFirstSpace (s : String) : List String :=
  match s.toList.findIdx? (fun c => c = ' ') with
  | none => [s]
  | some i => [(s.toList.take i).asString, (s.toList.drop (i + 1)).asString]

/-- `launchCommand` (main.go lines 205-214).  `resolve` abstracts
`exec.LookPath`; `none` is an unresolvable name, which is fatal
(`check(err)` panics).  On success the spawned process is
`(resolved path, argument list)` — exactly `exec.Command(path, args...)`
with `args = split[1:]`. -/
def launchCommand (resolve : String → Option String) (command : String) :
    Option (String × List String) :=
  let split := goSplitFirstSpace command
  let cmd := split.headD ""
  let args := split.drop 1
  (resolve cmd).map (fun p => (p, args))

/-- Modelled from the spec (claim C8 wording): split the selected line at
the first whitespace run — the name is everything before the run, the
raw remainder everything after it (the entire run is consumed);
the name is resolved via the search-path lookup, and an unresolvable
name is fatal. -/
def specLaunchWhitespaceRun (resolve : String → Option String) (command : String) :
    Option (String × List String) :=
  let cs := command.toList
  match cs.findIdx? goIsSpace with
  | none => (resolve command).map (fun p => (p, []))
  | some i =>
      let cmd := (cs.take i).asString
      let rest := ((cs.drop i).dropWhile goIsSpace).asString
      (resolve cmd).map (fun p => (p, [rest]))

/-- The amended claim C8 wording: the selected line is split at the first
space character (U+0020) only; the name is everything before that space,
the raw remainder everything after it (further whitespace is kept, and
the remainder is not tokenized); the name is resolved via the
search-path lookup, and an unresolvable name is fatal. -/
def specLaunchFirstSpace (resolve : String → Option String) (command : String) :
    Option (String × List String) :=
  let cs := command.toList
  match cs.findIdx? (fun c => c = ' ') with
  | none => (resolve command).map (fun p => (p, []))
  | some i =>
      (resolve ((cs.take i).asString)).map (fun p => (p, [(cs.drop (i + 1)).asString]))

/-- A concrete `exec.LookPath` environment: only `vim` resolves. -/
def vimOnlyResolve : String → Option String :=
  fun s => if s = "vim" then some "/bin/vim" else none

/-- A concrete filesystem for the PathScanner example of §8 of the spec:
`dir1` holds executable `vim`, `dir2` holds executables `emacs` and
`nano`. -/
def envExample : String → Option (List DirEntry) :=
  fun d =>
    if d = "dir1" then some [⟨"vim", 0o755⟩]
    else if d = "dir2" then some [⟨"emacs", 0o755⟩, ⟨"nano", 0o755⟩]
    else none

/-- A concrete filesystem for the race demonstration: `dir1` holds
executable `alpha`, `dir2` holds executable `beta`. -/
def raceEnv : String → Option (List DirEntry) :=
  fun d =>
    if d = "dir1" then some [⟨"alpha", 0o755⟩]
    else if d = "dir2" then some [⟨"beta", 0o755⟩]
    else none

/-- The seven-line history file on which `sort.Sort`'s instability on
equal counts is observable (the two count-2 records `a` and `b` trade
places). -/
def tieFile : String :=
  "1\tc\n3\tx1\n3\tx2\n2\ta\n3\tx3\n3\tx4\n2\tb\n"

/- ### Lemmas and claim theorems -/


theorem seen_mem (h : List String) (acc : List String) (x : String) :
    (x ∈ h.foldl (fun s cmd => if s.contains cmd then s else cmd :: s) acc) ↔ (x ∈ acc ∨ x ∈ h) := by
  induction h generalizing acc with
  | nil => simp
  | cons a t ih =>
    simp only [List.foldl_cons]
    by_cases hc : acc.contains a
    · rw [if_pos hc, ih]
      have ha : a ∈ acc := by simpa using hc
      constructor
      · rintro (h1 | h2)
        · exact Or.inl h1
        · exact Or.inr (List.mem_cons_of_mem _ h2)
      · rintro (h1 | h2)
        · exact Or.inl h1
        · rcases List.mem_cons.mp h2 with h3 | h3
          · exact Or.inl (h3 ▸ ha)
          · exact Or.inr h3
    · rw [if_neg hc, ih]
      simp only [List.mem_cons]
      tauto

theorem seenOf_mem (h : List String) (x : String) : (x ∈ seenOf h) ↔ x ∈ h := by
  unfold seenOf
  rw [seen_mem]
  simp

theorem mux_eq (ranked discovered : List String) :
    multiplexMenuStreams ranked discovered =
      ranked ++ discovered.filter (fun d => decide (d ∉ ranked)) := by
  unfold multiplexMenuStreams
  congr 1
  apply List.filter_congr
  intro d _
  have h1 := seenOf_mem ranked d
  by_cases hd : d ∈ ranked
  · simp [hd, h1.mpr hd]
  · have h2 : d ∉ seenOf ranked := fun hh => hd (h1.mp hh)
    simp [hd, h2]

theorem fetchLoop_eq (l : List DirEntry) :
    fetchLoop l = (l.filter (fun e => decide (e.mode &&& 0o111 ≠ 0))).map DirEntry.name := by
  induction l with
  | nil => rfl
  | cons f fs ih =>
    by_cases h : f.mode &&& 0o111 ≠ 0
    · simp [fetchLoop, h, ih]
    · simp [fetchLoop, h, ih]

theorem execBits_iff (m : Nat) : m &&& 0o111 ≠ 0 ↔ (m.testBit 0 ∨ m.testBit 3 ∨ m.testBit 6) := by
  constructor
  · intro h
    by_contra hno
    push_neg at hno
    apply h
    apply Nat.eq_of_testBit_eq
    intro i
    rw [Nat.testBit_and, Nat.zero_testBit]
    by_cases hi : i < 7
    · interval_cases i <;> simp_all [Nat.testBit]
    · have : (0o111 : Nat).testBit i = false := by
        apply Nat.testBit_eq_false_of_lt
        calc (0o111 : Nat) < 2 ^ 7 := by norm_num
        _ ≤ 2 ^ i := Nat.pow_le_pow_right (by norm_num) (by omega)
      simp [this]
  · intro h
    have key : ∀ k, m.testBit k = true → Nat.testBit 0o111 k = true → m &&& 0o111 ≠ 0 := by
      intro k hk h73 hz
      have h2 := Nat.testBit_and m 0o111 k
      rw [hz, Nat.zero_testBit, hk, h73] at h2
      simp at h2
    rcases h with h | h | h
    · exact key 0 h (by decide)
    · exact key 3 h (by decide)
    · exact key 6 h (by decide)

/-- C1: `multiplexMenuStreams` emits all ranked names first, in order and
unconditionally, then each discovered name, in order, exactly when it does
not occur in the ranked sequence; hence every ranked name precedes every
newly-discovered name, and the concrete example holds. -/
theorem claim_C1 :
    (∀ ranked discovered : List String,
      multiplexMenuStreams ranked discovered =
        ranked ++ discovered.filter (fun d => decide (d ∉ ranked))) ∧
    multiplexMenuStreams ["vim", "emacs", "neovim"] ["emacs", "nano", "vim"] =
      ["vim", "emacs", "neovim", "nano"] := by
  refine ⟨mux_eq, ?_⟩
  decide

/-- C6: `fetchExecutables` emits exactly the base names of the direct
entries whose mode has a `0111` execute bit set (owner, group or other),
and a missing or unreadable directory yields the empty sequence with no
error. -/
theorem claim_C6 :
    (∀ listing : List DirEntry,
      fetchExecutables (some listing) =
        (listing.filter (fun e => decide (e.mode &&& 0o111 ≠ 0))).map DirEntry.name) ∧
    fetchExecutables none = [] ∧
    (∀ m : Nat, m &&& 0o111 ≠ 0 ↔ (m.testBit 0 ∨ m.testBit 3 ∨ m.testBit 6)) := by
  exact ⟨fun l => fetchLoop_eq l, rfl, execBits_iff⟩

/-- C9: on the tab-less single-line file `"3\n"` the read aborts through
the out-of-bounds access to the second tab-separated field, not through
the documented count-parse failure, and returns no result. -/
theorem claim_C9 :
    readHistory (some "3\n") = .error .indexOutOfRange ∧
    AbortKind.indexOutOfRange ≠ AbortKind.parseFailure := by
  constructor
  · rfl
  · decide

/-- C8 counterexample: on the selected line `"vim\tfoo"` the claimed
split-at-first-whitespace-run behavior would resolve `vim` and launch it
with the raw remainder `foo`, but the code splits only at a space
character, treats the whole line as the executable name, and aborts. -/
theorem claim_C8_counterexample :
    launchCommand vimOnlyResolve "vim\tfoo" = none ∧
    specLaunchWhitespaceRun vimOnlyResolve "vim\tfoo" = some ("/bin/vim", ["foo"]) ∧
    launchCommand vimOnlyResolve "vim\tfoo" ≠
      specLaunchWhitespaceRun vimOnlyResolve "vim\tfoo" := by
  have h1 : launchCommand vimOnlyResolve "vim\tfoo" = none := rfl
  have h2 : specLaunchWhitespaceRun vimOnlyResolve "vim\tfoo" =
      some ("/bin/vim", ["foo"]) := rfl
  refine ⟨h1, h2, ?_⟩
  rw [h1, h2]
  simp

/-- C8 amended: the selected line is split at the first space character
(U+0020) only — not at a general whitespace run, and only that single
space is consumed — into an executable name and a single raw remainder
that is not further tokenized; the name is resolved via the search-path
lookup and an unresolvable name is fatal (no process is produced). -/
theorem claim_C8 :
    ∀ (resolve : String → Option String) (command : String),
      launchCommand resolve command = specLaunchFirstSpace resolve command ∧
      (resolve ((goSplitFirstSpace command).headD "") = none →
        launchCommand resolve command = none) := by
  intro resolve command
  constructor
  · unfold launchCommand specLaunchFirstSpace goSplitFirstSpace
    cases h : command.data.findIdx? (fun c => decide (c = ' ')) <;>
      simp only [String.toList, h] <;> rfl
  · intro h
    show (resolve ((goSplitFirstSpace command).headD "")).map
      (fun p => (p, (goSplitFirstSpace command).drop 1)) = none
    rw [h]
    rfl

theorem join_cons (s : String) (l : List String) :
    String.join (s :: l) = s ++ String.join l := by
  apply String.ext
  simp [String.join_eq]

theorem writeHistoryAux_cleared (cs : Commands) (h : ∀ c ∈ cs, c.name ≠ "") :
    writeHistoryAux cs "" = (cs, String.join (cs.map histLine)) := by
  induction cs with
  | nil => rfl
  | cons c rest ih =>
    have hc : c.name ≠ "" := h c (List.mem_cons_self c rest)
    have ih2 := ih (fun x hx => h x (List.mem_cons_of_mem _ hx))
    simp only [writeHistoryAux, if_neg hc, ih2, List.map_cons, join_cons]

theorem writeHistoryAux_spec (cs : Commands) (last : String) (hlast : last ≠ "")
    (h : ∀ c ∈ cs, c.name ≠ "") :
    writeHistoryAux cs last = (bumpFirst cs last, specWriteFile cs last) := by
  induction cs with
  | nil =>
    simp only [writeHistoryAux, bumpFirst, specWriteFile, if_pos hlast]
    simp only [List.map_nil, List.any_nil, Bool.false_eq_true, if_false, Prod.mk.injEq, true_and]
    rw [show String.join ([] : List String) = "" from rfl, String.empty_append]
  | cons c rest ih =>
    by_cases hc : c.name = last
    · have hrest := writeHistoryAux_cleared rest (fun x hx => h x (List.mem_cons_of_mem _ hx))
      simp only [writeHistoryAux, bumpFirst, specWriteFile, if_pos hc, hrest]
      simp only [Prod.mk.injEq, true_and]
      have hany : ((c :: rest).any fun x => x.name == last) = true := by
        simp [List.any_cons, hc]
      rw [hany]
      simp [join_cons, String.append_empty]
    · have ih2 := ih (fun x hx => h x (List.mem_cons_of_mem _ hx))
      simp only [writeHistoryAux, bumpFirst, specWriteFile, if_neg hc, ih2]
      simp only [Prod.mk.injEq, true_and]
      have hany : ((c :: rest).any fun x => x.name == last) = (rest.any fun x => x.name == last) := by
        simp [List.any_cons, hc]
      rw [hany, List.map_cons, join_cons, String.append_assoc]

theorem bumpFirst_names (cs : Commands) (last : String) :
    (bumpFirst cs last).map Command.name = cs.map Command.name := by
  induction cs with
  | nil => rfl
  | cons c rest ih =>
    by_cases hc : c.name = last
    · simp [bumpFirst, hc]
    · simp [bumpFirst, hc, ih]

theorem bumpFirst_getElem (cs : Commands) (last : String)
    (h3 : ∀ c ∈ cs, c.calls + 1 < U64MOD) (j : Nat) :
    (bumpFirst cs last)[j]? =
      if j = cs.findIdx (fun c => c.name == last)
      then cs[j]?.map (fun c => { c with calls := c.calls + 1 })
      else cs[j]? := by
  induction cs generalizing j with
  | nil => simp [bumpFirst]
  | cons c rest ih =>
    by_cases hc : c.name = last
    · have hidx : (c :: rest).findIdx (fun c => c.name == last) = 0 := by
        simp [List.findIdx_cons, hc]
      rw [hidx]
      cases j with
      | zero =>
        have hlt : c.calls + 1 < U64MOD := h3 c (List.mem_cons_self c rest)
        simp [bumpFirst, hc, Nat.mod_eq_of_lt hlt]
      | succ k => simp [bumpFirst, hc]
    · have hidx : (c :: rest).findIdx (fun c => c.name == last) =
          rest.findIdx (fun c => c.name == last) + 1 := by
        rw [List.findIdx_cons, beq_eq_false_iff_ne.mpr hc]
        rfl
      rw [hidx]
      cases j with
      | zero => simp [bumpFirst, hc]
      | succ k =>
        have ih2 := ih (fun x hx => h3 x (List.mem_cons_of_mem _ hx)) k
        simp only [bumpFirst, if_neg hc, List.getElem?_cons_succ, ih2]
        by_cases hk : k = rest.findIdx (fun c => c.name == last)
        · simp [hk]
        · simp [hk, fun hh => hk (Nat.succ_injective hh)]

/-- C2: `writeHistory` traverses the commands in input order; the first
command named `lastLaunched` is written with `Calls` incremented and the
match target is cleared so later entries are written untouched; every
command is written in order as `Calls\tName\n`; a missed match appends a
fresh `Calls = 1` record after all existing entries; nothing is
re-sorted.  (Names are the non-empty identifiers of the data model: the
in-code sentinel for "already matched" is the empty string.)  The two
concrete file contents of the claim are produced. -/
theorem claim_C2 :
    (∀ (commands : Commands) (lastLaunched : String),
      lastLaunched ≠ "" → (∀ c ∈ commands, c.name ≠ "") →
      (writeHistoryGo commands lastLaunched).2 = specWriteFile commands lastLaunched) ∧
    (writeHistoryGo [⟨"emacs", 3⟩, ⟨"vim", 2⟩] "vim").2 = "3\temacs\n3\tvim\n" ∧
    (writeHistoryGo (writeHistoryGo [⟨"emacs", 3⟩, ⟨"vim", 2⟩] "vim").1 "nano").2 =
      "3\temacs\n3\tvim\n1\tnano\n" := by
  refine ⟨?_, by decide, by decide⟩
  intro commands lastLaunched hlast hnames
  unfold writeHistoryGo
  rw [writeHistoryAux_spec commands lastLaunched hlast hnames]

/-- C2 witness: the general equation applied to the concrete first write
of the claim. -/
theorem claim_C2_witness :
    (writeHistoryGo [⟨"emacs", 3⟩, ⟨"vim", 2⟩] "vim").2 =
      specWriteFile [⟨"emacs", 3⟩, ⟨"vim", 2⟩] "vim" :=
  claim_C2.1 [⟨"emacs", 3⟩, ⟨"vim", 2⟩] "vim" (by decide) (by decide)

/-- C10: `writeHistory` mutates its input in place — afterwards the first
command named `lastLaunched` has `Calls` increased by exactly 1 and every
other command is unchanged in name and count (index-wise
characterization; when nothing matches, nothing changes), so a second
write over the same sequence increments again from the already
incremented value. -/
theorem claim_C10 :
    ∀ (commands : Commands) (lastLaunched : String),
      lastLaunched ≠ "" → (∀ c ∈ commands, c.name ≠ "") →
      (∀ c ∈ commands, c.calls + 1 < U64MOD) →
      (writeHistoryGo commands lastLaunched).1 = bumpFirst commands lastLaunched ∧
      (∀ j : Nat,
        ((writeHistoryGo commands lastLaunched).1)[j]? =
          if j = commands.findIdx (fun c => c.name == lastLaunched)
          then commands[j]?.map (fun c => { c with calls := c.calls + 1 })
          else commands[j]?) ∧
      (writeHistoryGo (writeHistoryGo commands lastLaunched).1 lastLaunched).1 =
        bumpFirst (bumpFirst commands lastLaunched) lastLaunched := by
  intro commands lastLaunched hlast hnames hcalls
  have hfst : (writeHistoryGo commands lastLaunched).1 = bumpFirst commands lastLaunched := by
    unfold writeHistoryGo
    rw [writeHistoryAux_spec commands lastLaunched hlast hnames]
  have hnames2 : ∀ c ∈ bumpFirst commands lastLaunched, c.name ≠ "" := by
    intro c hc
    have : c.name ∈ (bumpFirst commands lastLaunched).map Command.name := List.mem_map_of_mem _ hc
    rw [bumpFirst_names] at this
    rcases List.mem_map.mp this with ⟨c0, hc0, heq⟩
    rw [← heq]
    exact hnames c0 hc0
  refine ⟨hfst, ?_, ?_⟩
  · intro j
    rw [hfst]
    exact bumpFirst_getElem commands lastLaunched hcalls j
  · rw [hfst]
    unfold writeHistoryGo
    rw [writeHistoryAux_spec (bumpFirst commands lastLaunched) lastLaunched hlast hnames2]

/-- C10 witness: the characterization applied to the concrete
`[{emacs,3},{vim,2}]` with `lastLaunched = "vim"`, instantiated at
index 1 (the mutated element). -/
theorem claim_C10_witness :
    ((writeHistoryGo [⟨"emacs", 3⟩, ⟨"vim", 2⟩] "vim").1)[1]? = some ⟨"vim", 3⟩ := by
  have h := (claim_C10 [⟨"emacs", 3⟩, ⟨"vim", 2⟩] "vim" (by decide) (by decide) (by decide)).2.1 1
  rw [h]
  decide

theorem readHistory_eq (content : String) :
    readHistory (some content) =
      match (linesOf content).mapM parseHistLine with
      | .error e => .error e
      | .ok cmds => .ok (commandSortSort cmds) := by
  show Except.bind ((linesOf content).mapM parseHistLine) _ = _
  cases (linesOf content).mapM parseHistLine <;> rfl

theorem parseHistLine_eq (l : String) :
    parseHistLine l =
      match goParseInt64 ((goSplitChar '\t' (goTrimSpace l)).headD "") with
      | none => .error .parseFailure
      | some v =>
          match (goSplitChar '\t' (goTrimSpace l))[1]? with
          | none => .error .indexOutOfRange
          | some nm => .ok ⟨nm, toU64 v⟩ := rfl

theorem mapM_error_iff (f : String → Except AbortKind Command) (l : List String) :
    (∃ e, l.mapM f = .error e) ↔ ∃ x ∈ l, ∃ e, f x = .error e := by
  induction l with
  | nil =>
    constructor
    · rintro ⟨e, he⟩
      simp only [List.mapM_nil] at he
      cases he
    · rintro ⟨x, hx, _⟩
      cases hx
  | cons a t ih =>
    rw [List.mapM_cons]
    cases hfa : f a with
    | error e =>
      constructor
      · intro _
        exact ⟨a, List.mem_cons_self a t, e, hfa⟩
      · intro _
        exact ⟨e, rfl⟩
    | ok b =>
      cases hl : t.mapM f with
      | error e2 =>
        constructor
        · intro _
          rcases ih.mp ⟨e2, hl⟩ with ⟨x, hx, he⟩
          exact ⟨x, List.mem_cons_of_mem _ hx, he⟩
        · intro _
          exact ⟨e2, rfl⟩
      | ok bs =>
        constructor
        · rintro ⟨e, he⟩
          cases he
        · rintro ⟨x, hx, e, he⟩
          rcases List.mem_cons.mp hx with h1 | h1
          · rw [h1] at he
            rw [he] at hfa
            cases hfa
          · rcases ih.mpr ⟨x, h1, e, he⟩ with ⟨e3, he3⟩
            rw [he3] at hl
            cases hl

theorem readHistory_error_iff (content : String) :
    (∃ e, readHistory (some content) = .error e) ↔
      ∃ e, (linesOf content).mapM parseHistLine = .error e := by
  rw [readHistory_eq]
  cases hl : (linesOf content).mapM parseHistLine with
  | error e =>
    constructor
    · intro _
      exact ⟨e, rfl⟩
    · intro _
      exact ⟨e, rfl⟩
  | ok cmds =>
    constructor
    · rintro ⟨e2, he2⟩
      cases he2
    · rintro ⟨e2, he2⟩
      cases he2

theorem parseHistLine_error_iff (l : String) :
    (∃ e, parseHistLine l = .error e) ↔
      (goParseInt64 ((goSplitChar '\t' (goTrimSpace l)).headD "") = none ∨
       (goSplitChar '\t' (goTrimSpace l)).length < 2) := by
  rw [parseHistLine_eq]
  cases hp : goParseInt64 ((goSplitChar '\t' (goTrimSpace l)).headD "") with
  | none => simp
  | some v =>
    cases hg : (goSplitChar '\t' (goTrimSpace l))[1]? with
    | none =>
      have hlen : (goSplitChar '\t' (goTrimSpace l)).length ≤ 1 := by
        simpa using List.getElem?_eq_none_iff.mp hg
      constructor
      · intro _
        exact Or.inr (by omega)
      · intro _
        exact ⟨.indexOutOfRange, rfl⟩
    | some nm =>
      have hlen : 1 < (goSplitChar '\t' (goTrimSpace l)).length := by
        by_contra hcon
        rw [List.getElem?_eq_none_iff.mpr (by omega)] at hg
        cases hg
      constructor
      · rintro ⟨e, he⟩
        cases he
      · rintro (h | h)
        · exact Option.noConfusion h
        · omega

/-- C4 counterexample: on the file `"3\n"` (one line, integer count, no
tab) the read aborts even though no line's count field fails to parse —
the abort comes from the missing second field, so "aborts if and only if
some count fails to parse" is false as stated. -/
theorem claim_C4_counterexample :
    ¬ ((∃ e, readHistory (some "3\n") = .error e) ↔
        ∃ l ∈ linesOf "3\n",
          goParseInt64 ((goSplitChar '\t' (goTrimSpace l)).headD "") = none) := by
  intro h
  have habort : ∃ e, readHistory (some "3\n") = .error e :=
    ⟨.indexOutOfRange, by rfl⟩
  rcases h.mp habort with ⟨l, hl, hparse⟩
  have hl3 : l = "3" := by
    have : linesOf "3\n" = ["3"] := rfl
    rw [this] at hl
    simpa using hl
  rw [hl3] at hparse
  exact absurd hparse (by decide)

/-- C4 amended: the read aborts fatally (no line is ever skipped) if and
only if some line's count field fails to parse as an integer or some
line, its count parsing fine, lacks the second tab-separated field; a
nonexistent history file is not an error and yields an empty result. -/
theorem claim_C4 :
    (∀ content : String,
      (∃ e, readHistory (some content) = .error e) ↔
        ∃ l ∈ linesOf content,
          goParseInt64 ((goSplitChar '\t' (goTrimSpace l)).headD "") = none ∨
          (goSplitChar '\t' (goTrimSpace l)).length < 2) ∧
    readHistory none = .ok [] := by
  refine ⟨fun content => ?_, rfl⟩
  rw [readHistory_error_iff, mapM_error_iff]
  constructor
  · rintro ⟨l, hl, he⟩
    exact ⟨l, hl, (parseHistLine_error_iff l).mp he⟩
  · rintro ⟨l, hl, hcond⟩
    exact ⟨l, hl, (parseHistLine_error_iff l).mpr hcond⟩

theorem join_set_perm (ls : List (List String)) (i : Nat) (x : String) (rest : List String)
    (h : ls[i]? = some (x :: rest)) :
    List.Perm ls.flatten (x :: (ls.set i rest).flatten) := by
  induction ls generalizing i with
  | nil => cases h
  | cons hd tl ih =>
    cases i with
    | zero =>
      have hhd : hd = x :: rest := by simpa using h
      subst hhd
      simp
    | succ k =>
      have hk : tl[k]? = some (x :: rest) := by simpa using h
      have ihp := ih k hk
      simp only [List.set_cons_succ, List.flatten_cons]
      exact (List.Perm.append_left hd ihp).trans List.perm_middle

theorem interleaving_perm (ls : List (List String)) (out : List String)
    (h : IsInterleaving ls out) : List.Perm out ls.flatten := by
  induction h with
  | nil ls hls =>
    have hnil : ls.flatten = [] := List.flatten_eq_nil_iff.mpr hls
    rw [hnil]
  | step ls i x rest out hget _hrec ih =>
    exact ((join_set_perm ls i x rest hget).trans (List.Perm.cons x ih.symm)).symm

theorem charListLe_total (as bs : List Char) :
    charListLe as bs = true ∨ charListLe bs as = true := by
  induction as generalizing bs with
  | nil => exact Or.inl rfl
  | cons a as ih =>
    cases bs with
    | nil => exact Or.inr rfl
    | cons b bs =>
      by_cases h1 : a.toNat < b.toNat
      · exact Or.inl (by simp [charListLe, h1])
      · by_cases h2 : b.toNat < a.toNat
        · exact Or.inr (by simp [charListLe, h2])
        · rcases ih bs with h | h
          · exact Or.inl (by simp [charListLe, h1, h2, h])
          · exact Or.inr (by simp [charListLe, h1, h2, h])

theorem charListLe_head_le (a b : Char) (as bs : List Char)
    (h : charListLe (a :: as) (b :: bs) = true) : a.toNat ≤ b.toNat := by
  simp only [charListLe] at h
  by_cases h1 : a.toNat < b.toNat
  · omega
  · by_cases h2 : b.toNat < a.toNat
    · rw [if_neg h1, if_pos h2] at h
      cases h
    · omega

theorem charListLe_trans (as bs cs : List Char) (h1 : charListLe as bs = true)
    (h2 : charListLe bs cs = true) : charListLe as cs = true := by
  induction as generalizing bs cs with
  | nil => rfl
  | cons a as ih =>
    cases bs with
    | nil => simp [charListLe] at h1
    | cons b bs =>
      cases cs with
      | nil => simp [charListLe] at h2
      | cons c cs =>
        have hab := charListLe_head_le a b as bs h1
        have hbc := charListLe_head_le b c bs cs h2
        simp only [charListLe]
        by_cases hac : a.toNat < c.toNat
        · rw [if_pos hac]
        · have heq : a.toNat = c.toNat := by omega
          have habe : a.toNat = b.toNat := by omega
          rw [if_neg hac, if_neg (by omega)]
          simp only [charListLe, if_neg (show ¬ a.toNat < b.toNat by omega),
            if_neg (show ¬ b.toNat < a.toNat by omega)] at h1
          simp only [charListLe, if_neg (show ¬ b.toNat < c.toNat by omega),
            if_neg (show ¬ c.toNat < b.toNat by omega)] at h2
          exact ih bs cs h1 h2

theorem char_eq_of_toNat_eq (a b : Char) (h : a.toNat = b.toNat) : a = b :=
  Char.ext (UInt32.ext h)

theorem charListLe_antisymm (as bs : List Char) (h1 : charListLe as bs = true)
    (h2 : charListLe bs as = true) : as = bs := by
  induction as generalizing bs with
  | nil =>
    cases bs with
    | nil => rfl
    | cons b bs => simp [charListLe] at h2
  | cons a as ih =>
    cases bs with
    | nil => simp [charListLe] at h1
    | cons b bs =>
      simp only [charListLe] at h1 h2
      by_cases hab : a.toNat < b.toNat
      · simp [hab, Nat.lt_asymm hab] at h2
      · by_cases hba : b.toNat < a.toNat
        · simp [hab, hba] at h1
        · have heq : a = b := char_eq_of_toNat_eq a b (by omega)
          simp only [hab, hba, if_false] at h1 h2
          rw [heq, ih bs h1 h2]

theorem goStringLe_total (a b : String) : goStringLe a b = true ∨ goStringLe b a = true :=
  charListLe_total a.toList b.toList

theorem goStringLe_trans (a b c : String) (h1 : goStringLe a b = true)
    (h2 : goStringLe b c = true) : goStringLe a c = true :=
  charListLe_trans a.toList b.toList c.toList h1 h2

theorem goStringLe_antisymm (a b : String) (h1 : goStringLe a b = true)
    (h2 : goStringLe b a = true) : a = b := by
  apply String.ext
  exact charListLe_antisymm a.toList b.toList h1 h2

theorem sortStrings_sorted (l : List String) :
    (sortStrings l).Sorted (fun a b => goStringLe a b = true) :=
  @List.sorted_insertionSort String (fun a b => goStringLe a b = true) _
    ⟨goStringLe_total⟩ ⟨goStringLe_trans⟩ l

theorem sortStrings_perm (l : List String) : List.Perm (sortStrings l) l :=
  List.perm_insertionSort _ l

theorem sortStrings_perm_eq (l1 l2 : List String) (h : List.Perm l1 l2) :
    sortStrings l1 = sortStrings l2 :=
  @List.eq_of_perm_of_sorted String (fun a b => goStringLe a b = true) ⟨goStringLe_antisymm⟩ _ _
    ((sortStrings_perm l1).trans (h.trans (sortStrings_perm l2).symm))
    (sortStrings_sorted l1) (sortStrings_sorted l2)

/-- C5: whatever interleaving the concurrently completing directory
scans produce in the shared aggregate, what `scanPath` emits after the
`group.Wait()` barrier equals the concatenation of the per-directory
scan results sorted lexicographically (byte-wise, case-sensitive),
cross-directory duplicates retained; in particular two directories
holding `{vim}` and `{emacs,nano}` always yield `[emacs, nano, vim]`,
whichever scan completes first.  (Each append is taken as atomic here;
the unsynchronized reality of the appends is claim C7's subject.) -/
theorem claim_C5 :
    (∀ (env : String → Option (List DirEntry)) (path : String) (agg : List String),
      IsInterleaving (scanPathDirs env path) agg →
      scanPathEmit agg = sortStrings (scanPathDirs env path).flatten) ∧
    (∀ agg : List String,
      IsInterleaving (scanPathDirs envExample "dir1:dir2") agg →
      scanPathEmit agg = ["emacs", "nano", "vim"]) := by
  have main : ∀ (env : String → Option (List DirEntry)) (path : String) (agg : List String),
      IsInterleaving (scanPathDirs env path) agg →
      scanPathEmit agg = sortStrings (scanPathDirs env path).flatten := by
    intro env path agg h
    exact sortStrings_perm_eq _ _ (interleaving_perm _ _ h)
  refine ⟨main, fun agg h => ?_⟩
  rw [main envExample "dir1:dir2" agg h]
  decide

/-- C5 witness: the dir2-first completion order — `emacs` and `nano`
land in the aggregate before `vim` — still emits the sorted
concatenation. -/
theorem claim_C5_witness :
    IsInterleaving (scanPathDirs envExample "dir1:dir2") ["emacs", "nano", "vim"] ∧
    scanPathEmit ["emacs", "nano", "vim"] = ["emacs", "nano", "vim"] := by
  have hderiv : IsInterleaving (scanPathDirs envExample "dir1:dir2")
      ["emacs", "nano", "vim"] := by
    have h0 : scanPathDirs envExample "dir1:dir2" = [["vim"], ["emacs", "nano"]] := rfl
    rw [h0]
    refine IsInterleaving.step _ 1 "emacs" ["nano"] _ rfl ?_
    refine IsInterleaving.step _ 1 "nano" [] _ rfl ?_
    refine IsInterleaving.step _ 0 "vim" [] _ rfl ?_
    refine IsInterleaving.nil _ ?_
    intro l hl
    rcases List.mem_cons.mp hl with h | h
    · exact h
    · simpa using h
  exact ⟨hderiv, claim_C5.2 ["emacs", "nano", "vim"] hderiv⟩

/-- C7: the unsynchronized `commands = append(commands, item)` of the
scan workers can lose an entry — from the two-directory start both
workers may read the empty shared slice before either writes back, after
which the second write overwrites the first: the run terminates (both
queues drained, no deadlock in this schedule) with aggregate `["beta"]`,
`alpha` is gone, and the emitted sequence differs from the lossless one.
The spec itself calls this form a defect to fix, so the claim indicts
the code. -/
theorem claim_C7 :
    Relation.ReflTransGen RaceStep (raceInit (scanPathDirs raceEnv "dir1:dir2"))
      ⟨["beta"], [⟨none, []⟩, ⟨none, []⟩]⟩ ∧
    "alpha" ∈ (scanPathDirs raceEnv "dir1:dir2").flatten ∧
    "alpha" ∉ (["beta"] : List String) ∧
    scanPathEmit ["beta"] ≠ sortStrings (scanPathDirs raceEnv "dir1:dir2").flatten := by
  refine ⟨?_, by decide, by decide, by decide⟩
  have h0 : raceInit (scanPathDirs raceEnv "dir1:dir2") =
      ⟨[], [⟨none, ["alpha"]⟩, ⟨none, ["beta"]⟩]⟩ := rfl
  rw [h0]
  refine Relation.ReflTransGen.head
    (RaceStep.load ⟨[], [⟨none, ["alpha"]⟩, ⟨none, ["beta"]⟩]⟩ 0 "alpha" [] rfl) ?_
  refine Relation.ReflTransGen.head
    (RaceStep.load ⟨[], [⟨some [], ["alpha"]⟩, ⟨none, ["beta"]⟩]⟩ 1 "beta" [] rfl) ?_
  refine Relation.ReflTransGen.head
    (RaceStep.store ⟨[], [⟨some [], ["alpha"]⟩, ⟨some [], ["beta"]⟩]⟩ 0 [] "alpha" [] rfl) ?_
  refine Relation.ReflTransGen.head
    (RaceStep.store ⟨["alpha"], [⟨none, []⟩, ⟨some [], ["beta"]⟩]⟩ 1 [] "beta" [] rfl) ?_
  exact Relation.ReflTransGen.refl

/- ### Infrastructure for the sort.Sort verification -/

theorem getC_eq (d : Commands) (i : Nat) : getC d i = (d[i]?).getD default :=
  List.getD_eq_getElem?_getD d i default

theorem getC_of_getElem? (d : Commands) (i : Nat) (x : Command) (h : d[i]? = some x) :
    getC d i = x := by
  rw [getC_eq, h]
  rfl

theorem length_swapL (d : Commands) (i j : Nat) : (swapL d i j).length = d.length := by
  unfold swapL
  simp

theorem getElem?_swapL (d : Commands) (i j m : Nat) (hi : i < d.length) (hj : j < d.length) :
    (swapL d i j)[m]? =
      if m = j then some (getC d i) else if m = i then some (getC d j) else d[m]? := by
  unfold swapL
  rw [List.getElem?_set, List.getElem?_set]
  simp only [List.length_set]
  split_ifs <;> first | rfl | omega

theorem getElem?_swapL_frame (d : Commands) (i j m : Nat) (hmi : m ≠ i) (hmj : m ≠ j) :
    (swapL d i j)[m]? = d[m]? := by
  unfold swapL
  rw [List.getElem?_set, List.getElem?_set]
  have h1 : ¬ (j = m) := fun h => hmj h.symm
  have h2 : ¬ (i = m) := fun h => hmi h.symm
  simp [h1, h2]

theorem getC_swapL (d : Commands) (i j m : Nat) (hi : i < d.length) (hj : j < d.length) :
    getC (swapL d i j) m =
      if m = j then getC d i else if m = i then getC d j else getC d m := by
  rw [getC_eq, getElem?_swapL d i j m hi hj]
  split_ifs <;> simp [getC_eq]

theorem cons_set_perm (t : Commands) (c : Command) (k : Nat) (hk : k < t.length) :
    List.Perm (getC t k :: t.set k c) (c :: t) := by
  induction t generalizing k with
  | nil => cases hk
  | cons y t2 ih =>
    cases k with
    | zero =>
      have : getC (y :: t2) 0 = y := rfl
      rw [this, List.set_cons_zero]
      exact List.Perm.swap c y t2
    | succ k2 =>
      have h1 : getC (y :: t2) (k2 + 1) = getC t2 k2 := rfl
      rw [h1, List.set_cons_succ]
      have hk2 : k2 < t2.length := by simpa using hk
      have p1 : List.Perm (getC t2 k2 :: y :: t2.set k2 c) (y :: getC t2 k2 :: t2.set k2 c) :=
        List.Perm.swap y (getC t2 k2) _
      have p2 : List.Perm (y :: getC t2 k2 :: t2.set k2 c) (y :: c :: t2) :=
        List.Perm.cons y (ih k2 hk2)
      have p3 : List.Perm (y :: c :: t2) (c :: y :: t2) := List.Perm.swap c y t2
      exact (p1.trans p2).trans p3

theorem swapL_perm (d : Commands) (i j : Nat) (hi : i < d.length) (hj : j < d.length) :
    List.Perm (swapL d i j) d := by
  induction d generalizing i j with
  | nil => cases hi
  | cons c t ih =>
    cases i with
    | zero =>
      cases j with
      | zero =>
        have : swapL (c :: t) 0 0 = c :: t := by
          unfold swapL
          rfl
        rw [this]
      | succ k =>
        have hk : k < t.length := by simpa using hj
        have : swapL (c :: t) 0 (k + 1) = getC t k :: t.set k c := by
          unfold swapL
          rfl
        rw [this]
        exact cons_set_perm t c k hk
    | succ k1 =>
      cases j with
      | zero =>
        have hk : k1 < t.length := by simpa using hi
        have : swapL (c :: t) (k1 + 1) 0 = getC t k1 :: t.set k1 c := by
          unfold swapL
          rfl
        rw [this]
        exact cons_set_perm t c k1 hk
      | succ k2 =>
        have h1 : k1 < t.length := by simpa using hi
        have h2 : k2 < t.length := by simpa using hj
        have : swapL (c :: t) (k1 + 1) (k2 + 1) = c :: swapL t k1 k2 := by
          unfold swapL
          rfl
        rw [this]
        exact List.Perm.cons c (ih k1 k2 h1 h2)

theorem getElem?_seg (d : Commands) (a b k : Nat) (hk : k < b - a) :
    (seg d a b)[k]? = d[a + k]? := by
  unfold seg
  rw [List.getElem?_take, List.getElem?_drop]
  simp [hk]

theorem mem_seg_iff (d : Commands) (a b : Nat) (hb : b ≤ d.length) (x : Command) :
    x ∈ seg d a b ↔ ∃ i, a ≤ i ∧ i < b ∧ getC d i = x := by
  rw [List.mem_iff_getElem?]
  constructor
  · rintro ⟨n, hn⟩
    have hnb : n < b - a := by
      by_contra hcon
      rw [show (seg d a b)[n]? = none from ?_] at hn
      · cases hn
      · apply List.getElem?_eq_none_iff.mpr
        unfold seg
        simp only [List.length_take, List.length_drop]
        omega
    rw [getElem?_seg d a b n hnb] at hn
    exact ⟨a + n, by omega, by omega, getC_of_getElem? d _ x hn⟩
  · rintro ⟨i, hai, hib, hx⟩
    refine ⟨i - a, ?_⟩
    rw [getElem?_seg d a b (i - a) (by omega), show a + (i - a) = i by omega]
    rw [← hx, getC_eq]
    have : i < d.length := by omega
    rw [List.getElem?_eq_getElem this]
    rfl

theorem take_eq_of_frame (d d' : Commands) (a : Nat)
    (hframe : ∀ m, m < a → d'[m]? = d[m]?) : d'.take a = d.take a := by
  apply List.ext_getElem?
  intro n
  rw [List.getElem?_take, List.getElem?_take]
  by_cases hn : n < a
  · simp [hn, hframe n hn]
  · simp [hn]

theorem drop_eq_of_frame (d d' : Commands) (b : Nat)
    (hframe : ∀ m, b ≤ m → d'[m]? = d[m]?) : d'.drop b = d.drop b := by
  apply List.ext_getElem?
  intro n
  rw [List.getElem?_drop, List.getElem?_drop]
  exact hframe (b + n) (by omega)

theorem decomp_seg (d : Commands) (a b : Nat) (hab : a ≤ b) :
    d = d.take a ++ seg d a b ++ d.drop b := by
  unfold seg
  rw [List.append_assoc]
  conv_lhs => rw [← List.take_append_drop a d]
  congr 1
  conv_lhs => rw [← List.take_append_drop (b - a) (d.drop a)]
  congr 1
  rw [List.drop_drop]
  congr 1
  omega

theorem seg_perm_of_frame (d d' : Commands) (a b : Nat)
    (hperm : List.Perm d' d)
    (hframe : ∀ m, m < a ∨ b ≤ m → d'[m]? = d[m]?) :
    List.Perm (seg d' a b) (seg d a b) := by
  by_cases hab : a ≤ b
  · have htake : d'.take a = d.take a :=
      take_eq_of_frame d d' a (fun m hm => hframe m (Or.inl hm))
    have hdrop : d'.drop b = d.drop b :=
      drop_eq_of_frame d d' b (fun m hm => hframe m (Or.inr hm))
    have h1 := hperm
    rw [decomp_seg d' a b hab, decomp_seg d a b hab, htake, hdrop] at h1
    rw [List.append_assoc, List.append_assoc] at h1
    have h2 := (List.perm_append_left_iff (d.take a)).mp h1
    exact (List.perm_append_right_iff (d.drop b)).mp h2
  · have hz : b - a = 0 := by omega
    unfold seg
    rw [hz]
    simp

theorem sortedSeg_pairwise (d : Commands) (a b : Nat) (h : SortedSeg d a b) :
    ∀ i j, a ≤ i → i ≤ j → j < b → (getC d j).calls ≤ (getC d i).calls := by
  intro i j hai hij hjb
  induction j with
  | zero =>
    have : i = 0 := by omega
    rw [this]
  | succ k ih =>
    by_cases hik : i = k + 1
    · rw [hik]
    · have h1 : (getC d (k + 1)).calls ≤ (getC d k).calls := h k (by omega) (by omega)
      have h2 := ih (by omega) (by omega)
      omega

theorem sortedSeg_mono (d : Commands) (a b a2 b2 : Nat) (h : SortedSeg d a b)
    (ha : a ≤ a2) (hb : b2 ≤ b) : SortedSeg d a2 b2 := by
  intro i hi hib
  exact h i (by omega) (by omega)

theorem sortedSeg_of_eq (d d' : Commands) (a b : Nat) (h : SortedSeg d a b)
    (heq : ∀ m, a ≤ m → m < b → getC d' m = getC d m) : SortedSeg d' a b := by
  intro i hi hib
  rw [heq i (by omega) (by omega), heq (i + 1) (by omega) (by omega)]
  exact h i hi hib

theorem sortedSeg_trivial (d : Commands) (a b : Nat) (h : b ≤ a + 1) : SortedSeg d a b := by
  intro i hi hib
  omega

theorem insInner_post (a J : Nat) :
    ∀ (j : Nat) (d : Commands), J < d.length → a ≤ j → j ≤ J →
      SortedSeg d a j →
      SortedSeg d j (J + 1) →
      (∀ p q, a ≤ p → p < j → j < q → q ≤ J →
        (getC d q).calls ≤ (getC d p).calls) →
      (insInner a d j).length = d.length ∧
      List.Perm (insInner a d j) d ∧
      (∀ m, m < a ∨ J < m → (insInner a d j)[m]? = d[m]?) ∧
      SortedSeg (insInner a d j) a (J + 1) := by
  intro j
  induction j with
  | zero =>
    intro d hlen ha hJ hsl hsr hcross
    refine ⟨rfl, List.Perm.refl d, fun m _ => rfl, ?_⟩
    intro i hi hib
    exact hsr i (by omega) hib
  | succ k ih =>
    intro d hlen ha hJ hsl hsr hcross
    by_cases hcond : (decide (a < k + 1) && revByScoreLess (getC d (k + 1)) (getC d k)) = true
    · have hstep : insInner a d (k + 1) = insInner a (swapL d (k + 1) k) k := by
        simp only [insInner]
        rw [if_pos hcond]
      have hk1 : k + 1 < d.length := by omega
      have hk0 : k < d.length := by omega
      simp only [Bool.and_eq_true, decide_eq_true_eq, revByScoreLess] at hcond
      have ha2 : a < k + 1 := hcond.1
      have hlt : (getC d k).calls < (getC d (k + 1)).calls := hcond.2
      set d2 := swapL d (k + 1) k with hd2
      have hget : ∀ m, getC d2 m =
          if m = k then getC d (k + 1) else if m = k + 1 then getC d k else getC d m :=
        fun m => getC_swapL d (k + 1) k m hk1 hk0
      have hlen2 : d2.length = d.length := length_swapL d (k + 1) k
      have hsl2 : SortedSeg d2 a k := by
        intro i hi hib
        rw [hget i, hget (i + 1)]
        rw [if_neg (by omega), if_neg (by omega), if_neg (by omega), if_neg (by omega)]
        exact hsl i hi (by omega)
      have hsr2 : SortedSeg d2 k (J + 1) := by
        intro i hi hib
        rcases Nat.lt_trichotomy i k with hik | hik | hik
        · omega
        · subst hik
          rw [hget i, hget (i + 1)]
          rw [if_pos rfl, if_neg (by omega), if_pos rfl]
          omega
        · rcases Nat.lt_trichotomy i (k + 1) with hik2 | hik2 | hik2
          · omega
          · subst hik2
            rw [hget (k + 1), hget (k + 2)]
            rw [if_neg (by omega), if_pos rfl, if_neg (by omega), if_neg (by omega)]
            exact hcross k (k + 2) (by omega) (by omega) (by omega) (by omega)
          · rw [hget i, hget (i + 1)]
            rw [if_neg (by omega), if_neg (by omega), if_neg (by omega), if_neg (by omega)]
            exact hsr i (by omega) hib
      have hcross2 : ∀ p q, a ≤ p → p < k → k < q → q ≤ J →
          (getC d2 q).calls ≤ (getC d2 p).calls := by
        intro p q hap hpk hkq hqJ
        rw [hget p, hget q]
        by_cases hq : q = k + 1
        · rw [if_neg (show ¬ q = k by omega), if_pos hq, if_neg (show ¬ p = k by omega),
            if_neg (show ¬ p = k + 1 by omega)]
          exact sortedSeg_pairwise d a (k + 1) hsl p k hap (by omega) (by omega)
        · rw [if_neg (show ¬ q = k by omega), if_neg hq, if_neg (show ¬ p = k by omega),
            if_neg (show ¬ p = k + 1 by omega)]
          exact hcross p q hap (by omega) (by omega) hqJ
      have hrec := ih d2 (by omega) (by omega) (by omega) hsl2 hsr2 hcross2
      rw [hstep]
      refine ⟨hrec.1.trans hlen2, hrec.2.1.trans (swapL_perm d (k + 1) k hk1 hk0), ?_, hrec.2.2.2⟩
      intro m hm
      rw [hrec.2.2.1 m hm]
      apply getElem?_swapL_frame
      · omega
      · omega
    · have hstep : insInner a d (k + 1) = d := by
        simp only [insInner]
        rw [if_neg hcond]
      rw [hstep]
      refine ⟨rfl, List.Perm.refl d, fun m _ => rfl, ?_⟩
      simp only [Bool.and_eq_true, decide_eq_true_eq, revByScoreLess, not_and] at hcond
      by_cases ha2 : a < k + 1
      · have hle : (getC d (k + 1)).calls ≤ (getC d k).calls := by
          have := hcond ha2
          simp only [decide_eq_true_eq] at this
          omega
        intro i hi hib
        rcases Nat.lt_trichotomy i k with hik | hik | hik
        · exact hsl i hi (by omega)
        · subst hik
          exact hle
        · exact hsr i (by omega) hib
      · have hak : a = k + 1 := by omega
        intro i hi hib
        exact hsr i (by omega) hib

theorem insOuter_post (a : Nat) :
    ∀ (k : Nat) (d : Commands) (i : Nat), a < i → i + k ≤ d.length → SortedSeg d a i →
      (insOuter a d i k).length = d.length ∧
      List.Perm (insOuter a d i k) d ∧
      (∀ m, m < a ∨ i + k ≤ m → (insOuter a d i k)[m]? = d[m]?) ∧
      SortedSeg (insOuter a d i k) a (i + k) := by
  intro k
  induction k with
  | zero =>
    intro d i hai hik hsort
    exact ⟨rfl, List.Perm.refl d, fun m _ => rfl, hsort⟩
  | succ k2 ih =>
    intro d i hai hik hsort
    have hstep : insOuter a d i (k2 + 1) = insOuter a (insInner a d i) (i + 1) k2 := rfl
    have hinner := insInner_post a i i d (by omega) (by omega) (le_refl i) hsort
      (sortedSeg_trivial d i (i + 1) (by omega))
      (fun p q _ _ hq hq2 => by omega)
    have houter := ih (insInner a d i) (i + 1) (by omega)
      (by rw [hinner.1]; omega) hinner.2.2.2
    rw [hstep]
    have harith : i + 1 + k2 = i + (k2 + 1) := by omega
    refine ⟨houter.1.trans hinner.1, houter.2.1.trans hinner.2.1, ?_, ?_⟩
    · intro m hm
      rw [houter.2.2.1 m (by omega)]
      exact hinner.2.2.1 m (by omega)
    · rw [← harith]
      exact houter.2.2.2

theorem insertionSortGo_post (d : Commands) (a b : Nat) (hb : b ≤ d.length) :
    (insertionSortGo d a b).length = d.length ∧
    List.Perm (insertionSortGo d a b) d ∧
    (∀ m, m < a ∨ b ≤ m → (insertionSortGo d a b)[m]? = d[m]?) ∧
    SortedSeg (insertionSortGo d a b) a b := by
  unfold insertionSortGo
  by_cases hab : a + 1 < b
  · have h := insOuter_post a (b - (a + 1)) d (a + 1) (by omega) (by omega)
      (sortedSeg_trivial d a (a + 1) (by omega))
    have harith : a + 1 + (b - (a + 1)) = b := by omega
    rw [harith] at h
    exact h
  · have hz : b - (a + 1) = 0 := by omega
    rw [hz]
    refine ⟨rfl, List.Perm.refl d, fun m _ => rfl, sortedSeg_trivial d a b (by omega)⟩

theorem shellLoop_post :
    ∀ (k : Nat) (d : Commands) (i : Nat), 6 ≤ i → i + k ≤ d.length →
      (shellLoop d i k).length = d.length ∧
      List.Perm (shellLoop d i k) d ∧
      (∀ m, m < i - 6 ∨ i + k ≤ m → (shellLoop d i k)[m]? = d[m]?) := by
  intro k
  induction k with
  | zero =>
    intro d i h6 hik
    exact ⟨rfl, List.Perm.refl d, fun m _ => rfl⟩
  | succ k2 ih =>
    intro d i h6 hik
    have hstep : shellLoop d i (k2 + 1) =
        shellLoop (if revByScoreLess (getC d i) (getC d (i - 6)) then swapL d i (i - 6) else d)
          (i + 1) k2 := rfl
    set d2 := if revByScoreLess (getC d i) (getC d (i - 6)) then swapL d i (i - 6) else d with hd2
    have hlen2 : d2.length = d.length := by
      rw [hd2]
      split_ifs
      · exact length_swapL d i (i - 6)
      · rfl
    have hperm2 : List.Perm d2 d := by
      rw [hd2]
      split_ifs
      · exact swapL_perm d i (i - 6) (by omega) (by omega)
      · exact List.Perm.refl d
    have hframe2 : ∀ m, m ≠ i → m ≠ i - 6 → d2[m]? = d[m]? := by
      intro m h1 h2
      rw [hd2]
      split_ifs
      · exact getElem?_swapL_frame d i (i - 6) m h1 h2
      · rfl
    have hrec := ih d2 (i + 1) (by omega) (by omega)
    rw [hstep]
    refine ⟨hrec.1.trans hlen2, hrec.2.1.trans hperm2, ?_⟩
    intro m hm
    rw [hrec.2.2 m (by omega)]
    exact hframe2 m (by omega) (by omega)

theorem shellPassGo_post (d : Commands) (a b : Nat) (hb : b ≤ d.length) :
    (shellPassGo d a b).length = d.length ∧
    List.Perm (shellPassGo d a b) d ∧
    (∀ m, m < a ∨ b ≤ m → (shellPassGo d a b)[m]? = d[m]?) := by
  unfold shellPassGo
  by_cases hab : a + 6 ≤ b
  · have h := shellLoop_post (b - (a + 6)) d (a + 6) (by omega) (by omega)
    refine ⟨h.1, h.2.1, ?_⟩
    intro m hm
    exact h.2.2 m (by omega)
  · have hz : b - (a + 6) = 0 := by omega
    rw [hz]
    exact ⟨rfl, List.Perm.refl d, fun m _ => rfl⟩

theorem heap_root_min (d : Commands) (first n : Nat) (hheap : HeapFrom d first n 0) :
    ∀ p, p < n → (getC d first).calls ≤ (getC d (first + p)).calls := by
  intro p
  induction p using Nat.strong_induction_on with
  | _ p ih =>
    intro hp
    cases p with
    | zero => rfl
    | succ k =>
      have hedge := hheap ((k + 1 - 1) / 2) (k + 1) (by omega) hp (by omega)
      have hup := ih ((k + 1 - 1) / 2) (by omega) (by omega)
      omega

theorem siftDown_post (first hi t : Nat) :
    ∀ (fuel : Nat) (d : Commands) (root0 : Nat),
      first + hi ≤ d.length → t ≤ root0 → hi - root0 ≤ fuel →
      (∀ r c, t ≤ r → r ≠ root0 → c < hi → (c = 2 * r + 1 ∨ c = 2 * r + 2) →
        (getC d (first + r)).calls ≤ (getC d (first + c)).calls) →
      (root0 = t ∨ (∀ c, c < hi → (c = 2 * root0 + 1 ∨ c = 2 * root0 + 2) →
        (getC d (first + (root0 - 1) / 2)).calls ≤ (getC d (first + c)).calls)) →
      (siftDownGo d root0 hi first fuel).length = d.length ∧
      List.Perm (siftDownGo d root0 hi first fuel) d ∧
      (∀ m, m < first + root0 ∨ first + hi ≤ m →
        (siftDownGo d root0 hi first fuel)[m]? = d[m]?) ∧
      HeapFrom (siftDownGo d root0 hi first fuel) first hi t := by
  intro fuel
  induction fuel with
  | zero =>
    intro d root0 hlen ht hfuel hINV hG
    refine ⟨rfl, List.Perm.refl d, fun m _ => rfl, ?_⟩
    intro r c hr hc hrel
    by_cases hr0 : r = root0
    · subst hr0
      omega
    · exact hINV r c hr hr0 hc hrel
  | succ fuel ih =>
    intro d root0 hlen ht hfuel hINV hG
    have hbody : siftDownGo d root0 hi first (fuel + 1) =
        (if 2 * root0 + 1 ≥ hi then d
         else
           if !revByScoreLess (getC d (first + root0))
               (getC d (first +
                 (if decide (2 * root0 + 1 + 1 < hi) &&
                     revByScoreLess (getC d (first + (2 * root0 + 1)))
                       (getC d (first + (2 * root0 + 1) + 1)) then
                   2 * root0 + 1 + 1
                 else 2 * root0 + 1))) then d
           else
             siftDownGo
               (swapL d (first + root0)
                 (first +
                   (if decide (2 * root0 + 1 + 1 < hi) &&
                       revByScoreLess (getC d (first + (2 * root0 + 1)))
                         (getC d (first + (2 * root0 + 1) + 1)) then
                     2 * root0 + 1 + 1
                   else 2 * root0 + 1)))
               (if decide (2 * root0 + 1 + 1 < hi) &&
                   revByScoreLess (getC d (first + (2 * root0 + 1)))
                     (getC d (first + (2 * root0 + 1) + 1)) then
                 2 * root0 + 1 + 1
               else 2 * root0 + 1)
               hi first fuel) := rfl
    by_cases h1 : 2 * root0 + 1 ≥ hi
    · rw [hbody, if_pos h1]
      refine ⟨rfl, List.Perm.refl d, fun m _ => rfl, ?_⟩
      intro r c hr hc hrel
      by_cases hr0 : r = root0
      · subst hr0
        omega
      · exact hINV r c hr hr0 hc hrel
    · rw [hbody, if_neg h1]
      set ch := (if decide (2 * root0 + 1 + 1 < hi) &&
          revByScoreLess (getC d (first + (2 * root0 + 1)))
            (getC d (first + (2 * root0 + 1) + 1)) then 2 * root0 + 1 + 1
        else 2 * root0 + 1) with hchdef
      have hch_range : 2 * root0 + 1 ≤ ch ∧ ch ≤ 2 * root0 + 2 ∧ ch < hi := by
        rw [hchdef]
        split_ifs with hs
        · simp only [Bool.and_eq_true, decide_eq_true_eq] at hs
          omega
        · omega
      have hch_min : ∀ c, c < hi → (c = 2 * root0 + 1 ∨ c = 2 * root0 + 2) →
          (getC d (first + ch)).calls ≤ (getC d (first + c)).calls := by
        intro c hc hrel
        rw [hchdef]
        have e1 : first + (2 * root0 + 1 + 1) = first + (2 * root0 + 1) + 1 := by omega
        have e2 : first + (2 * root0 + 2) = first + (2 * root0 + 1) + 1 := by omega
        split_ifs with hs
        · simp only [Bool.and_eq_true, decide_eq_true_eq, revByScoreLess] at hs
          rcases hrel with h | h
          · subst h
            rw [e1]
            omega
          · subst h
            rw [show 2 * root0 + 1 + 1 = 2 * root0 + 2 from by omega]
        · simp only [Bool.and_eq_true, decide_eq_true_eq, revByScoreLess, not_and_or] at hs
          rcases hrel with h | h
          · subst h
            omega
          · subst h
            rcases hs with hs | hs
            · omega
            · simp only [decide_eq_true_eq, not_lt] at hs
              rw [show first + (2 * root0 + 1) + 1 = first + (2 * root0 + 2) from by omega] at hs
              exact hs
      by_cases h2 : (!revByScoreLess (getC d (first + root0)) (getC d (first + ch))) = true
      · rw [if_pos h2]
        simp only [Bool.not_eq_true', revByScoreLess, decide_eq_false_iff_not] at h2
        refine ⟨rfl, List.Perm.refl d, fun m _ => rfl, ?_⟩
        intro r c hr hc hrel
        by_cases hr0 : r = root0
        · subst hr0
          have := hch_min c hc hrel
          omega
        · exact hINV r c hr hr0 hc hrel
      · rw [if_neg h2]
        simp only [Bool.not_eq_true', Bool.not_eq_false, revByScoreLess,
          decide_eq_true_eq] at h2
        have hroot_lt : root0 < hi := by omega
        have hi1 : first + root0 < d.length := by omega
        have hj1 : first + ch < d.length := by omega
        have hne : root0 ≠ ch := by omega
        set d2 := swapL d (first + root0) (first + ch) with hd2def
        have hget2 : ∀ m, getC d2 m =
            if m = first + ch then getC d (first + root0)
            else if m = first + root0 then getC d (first + ch) else getC d m :=
          fun m => getC_swapL d (first + root0) (first + ch) m hi1 hj1
        have hlen2 : d2.length = d.length := length_swapL d (first + root0) (first + ch)
        have hINV2 : ∀ r c, t ≤ r → r ≠ ch → c < hi → (c = 2 * r + 1 ∨ c = 2 * r + 2) →
            (getC d2 (first + r)).calls ≤ (getC d2 (first + c)).calls := by
          intro r c hr hrch hc hrel
          by_cases hr0 : root0 = r
          · subst hr0
            rw [hget2 (first + root0), hget2 (first + c)]
            rw [if_neg (by omega), if_pos rfl]
            by_cases hcch : c = ch
            · rw [if_pos (by omega)]
              omega
            · rw [if_neg (by omega), if_neg (by omega)]
              exact hch_min c hc hrel
          · rw [hget2 (first + r), hget2 (first + c)]
            rw [if_neg (by omega), if_neg (by omega)]
            by_cases hc0 : c = root0
            · have hrpar : r = (root0 - 1) / 2 := by omega
              rw [if_neg (by omega), if_pos (by omega)]
              rcases hG with hG | hG
              · exfalso
                omega
              · rw [hrpar]
                exact hG ch hch_range.2.2 (by omega)
            · by_cases hcch : c = ch
              · exfalso
                omega
              · rw [if_neg (by omega), if_neg (by omega)]
                exact hINV r c hr (fun hh => hr0 hh.symm) hc hrel
        have hG2 : ch = t ∨ (∀ g, g < hi → (g = 2 * ch + 1 ∨ g = 2 * ch + 2) →
            (getC d2 (first + (ch - 1) / 2)).calls ≤ (getC d2 (first + g)).calls) := by
          right
          intro g hg hgrel
          have hpar : (ch - 1) / 2 = root0 := by omega
          rw [hpar, hget2 (first + root0), hget2 (first + g)]
          rw [if_neg (by omega), if_pos rfl, if_neg (by omega), if_neg (by omega)]
          exact hINV ch g (by omega) hne.symm hg hgrel
        have hrec := ih d2 ch (by omega) (by omega) (by omega) hINV2 hG2
        refine ⟨hrec.1.trans hlen2, hrec.2.1.trans (swapL_perm d _ _ hi1 hj1), ?_, hrec.2.2.2⟩
        intro m hm
        rw [hrec.2.2.1 m (by omega)]
        exact getElem?_swapL_frame d _ _ m (by omega) (by omega)

theorem heapBuild_post (first hi : Nat) :
    ∀ (t : Nat) (d : Commands), first + hi ≤ d.length → HeapFrom d first hi (t + 1) →
      (heapBuild d hi first t).length = d.length ∧
      List.Perm (heapBuild d hi first t) d ∧
      (∀ m, m < first ∨ first + hi ≤ m → (heapBuild d hi first t)[m]? = d[m]?) ∧
      HeapFrom (heapBuild d hi first t) first hi 0 := by
  intro t
  induction t with
  | zero =>
    intro d hlen hheap
    have h := siftDown_post first hi 0 (hi + 1) d 0 hlen (le_refl 0) (by omega)
      (fun r c hr hr0 hc hrel => hheap r c (by omega) hc hrel) (Or.inl rfl)
    exact ⟨h.1, h.2.1, fun m hm => h.2.2.1 m (by omega), h.2.2.2⟩
  | succ t2 ih =>
    intro d hlen hheap
    have hstep : heapBuild d hi first (t2 + 1) =
        heapBuild (siftDownGo d (t2 + 1) hi first (hi + 1)) hi first t2 := rfl
    have hsift := siftDown_post first hi (t2 + 1) (hi + 1) d (t2 + 1) hlen (le_refl _)
      (by omega) (fun r c hr hr0 hc hrel => hheap r c (by omega) hc hrel) (Or.inl rfl)
    have hrec := ih (siftDownGo d (t2 + 1) hi first (hi + 1))
      (by rw [hsift.1]; exact hlen) hsift.2.2.2
    rw [hstep]
    refine ⟨hrec.1.trans hsift.1, hrec.2.1.trans hsift.2.1, ?_, hrec.2.2.2⟩
    intro m hm
    rw [hrec.2.2.1 m hm]
    exact hsift.2.2.1 m (by omega)

theorem heapPopStep_post (first hi0 i : Nat) (d : Commands)
    (hlen : first + hi0 ≤ d.length) (hihi : i < hi0)
    (hheap : HeapFrom d first (i + 1) 0)
    (hsorted : SortedSeg d (first + i + 1) (first + hi0))
    (hsep : ∀ x ∈ seg d first (first + i + 1), ∀ q, i + 1 ≤ q → q < hi0 →
      (getC d (first + q)).calls ≤ x.calls) :
    (heapPopStep d first i).length = d.length ∧
    List.Perm (heapPopStep d first i) d ∧
    (∀ m, m < first ∨ first + hi0 ≤ m → (heapPopStep d first i)[m]? = d[m]?) ∧
    HeapFrom (heapPopStep d first i) first i 0 ∧
    SortedSeg (heapPopStep d first i) (first + i) (first + hi0) ∧
    (∀ x ∈ seg (heapPopStep d first i) first (first + i), ∀ q, i ≤ q → q < hi0 →
      (getC (heapPopStep d first i) (first + q)).calls ≤ x.calls) := by
  have hf1 : first < d.length := by omega
  have hf2 : first + i < d.length := by omega
  set d2 := swapL d first (first + i) with hd2def
  have hget2 : ∀ m, getC d2 m =
      if m = first + i then getC d first
      else if m = first then getC d (first + i) else getC d m :=
    fun m => getC_swapL d first (first + i) m hf1 hf2
  have hlen2 : d2.length = d.length := length_swapL d first (first + i)
  have hframe2 : ∀ m, m ≠ first → m ≠ first + i → d2[m]? = d[m]? :=
    fun m h1 h2 => getElem?_swapL_frame d first (first + i) m h1 h2
  have hstep : heapPopStep d first i = siftDownGo d2 0 i first (i + 1) := rfl
  have hINVd2 : ∀ r c, 0 ≤ r → r ≠ 0 → c < i → (c = 2 * r + 1 ∨ c = 2 * r + 2) →
      (getC d2 (first + r)).calls ≤ (getC d2 (first + c)).calls := by
    intro r c _ hr0 hc hrel
    rw [hget2 (first + r), hget2 (first + c)]
    rw [if_neg (by omega), if_neg (by omega), if_neg (by omega), if_neg (by omega)]
    exact hheap r c (by omega) (by omega) hrel
  have hsift := siftDown_post first i 0 (i + 1) d2 0 (by omega) (le_refl 0) (by omega)
    hINVd2 (Or.inl rfl)
  rw [hstep]
  have hlen3 : (siftDownGo d2 0 i first (i + 1)).length = d.length := hsift.1.trans hlen2
  have hgetout : ∀ m, first + i ≤ m → getC (siftDownGo d2 0 i first (i + 1)) m = getC d2 m := by
    intro m hm
    rw [getC_eq, getC_eq, hsift.2.2.1 m (by omega)]
  have hrootmin := heap_root_min d first (i + 1) hheap
  refine ⟨hlen3, (hsift.2.1.trans (swapL_perm d first (first + i) hf1 hf2)), ?_, hsift.2.2.2,
    ?_, ?_⟩
  · intro m hm
    rw [hsift.2.2.1 m (by omega)]
    exact hframe2 m (by omega) (by omega)
  · intro p hp hplt
    rw [hgetout p (by omega), hgetout (p + 1) (by omega)]
    by_cases hpi : p = first + i
    · subst hpi
      rw [hget2 (first + i + 1), hget2 (first + i)]
      rw [if_neg (by omega), if_neg (by omega), if_pos rfl]
      have hmem : getC d first ∈ seg d first (first + i + 1) := by
        rw [mem_seg_iff d first (first + i + 1) (by omega) (getC d first)]
        exact ⟨first, le_refl first, by omega, rfl⟩
      have := hsep (getC d first) hmem (i + 1) (le_refl _) (by omega)
      rw [show first + (i + 1) = first + i + 1 from by omega] at this
      exact this
    · rw [hget2 (p + 1), hget2 p]
      rw [if_neg (by omega), if_neg (by omega), if_neg (by omega), if_neg (by omega)]
      exact hsorted p (by omega) hplt
  · intro x hx q hq hqlt
    have hsegperm : List.Perm (seg (siftDownGo d2 0 i first (i + 1)) first (first + i))
        (seg d2 first (first + i)) :=
      seg_perm_of_frame d2 (siftDownGo d2 0 i first (i + 1)) first (first + i) hsift.2.1
        (fun m hm => hsift.2.2.1 m (by omega))
    have hx2 : x ∈ seg d2 first (first + i) := hsegperm.mem_iff.mp hx
    rw [mem_seg_iff d2 first (first + i) (by omega) x] at hx2
    rcases hx2 with ⟨p, hp1, hp2, hp3⟩
    have hxmem : ∃ p2, first ≤ p2 ∧ p2 < first + i + 1 ∧ getC d p2 = x := by
      by_cases hpf : p = first
      · refine ⟨first + i, by omega, by omega, ?_⟩
        rw [← hp3, hpf, hget2 first]
        by_cases hifz : i = 0
        · rw [hifz]
          simp
        · rw [if_neg (by omega), if_pos rfl]
      · refine ⟨p, hp1, by omega, ?_⟩
        rw [← hp3, hget2 p, if_neg (by omega), if_neg hpf]
    rcases hxmem with ⟨p2, hp21, hp22, hp23⟩
    have hxlow : (getC d first).calls ≤ x.calls := by
      have := hrootmin (p2 - first) (by omega)
      rw [show first + (p2 - first) = p2 from by omega] at this
      rw [← hp23]
      exact this
    by_cases hqi : q = i
    · subst hqi
      rw [hgetout (first + q) (by omega), hget2 (first + q), if_pos rfl]
      exact hxlow
    · have hq2 : i + 1 ≤ q := by omega
      rw [hgetout (first + q) (by omega), hget2 (first + q)]
      rw [if_neg (by omega), if_neg (by omega)]
      have hxseg : x ∈ seg d first (first + i + 1) :=
        (mem_seg_iff d first (first + i + 1) (by omega) x).mpr ⟨p2, hp21, hp22, hp23⟩
      exact hsep x hxseg q hq2 hqlt

theorem heapPop_post (first hi0 : Nat) :
    ∀ (i : Nat) (d : Commands), first + hi0 ≤ d.length → i < hi0 →
      HeapFrom d first (i + 1) 0 →
      SortedSeg d (first + i + 1) (first + hi0) →
      (∀ x ∈ seg d first (first + i + 1), ∀ q, i + 1 ≤ q → q < hi0 →
        (getC d (first + q)).calls ≤ x.calls) →
      (heapPop d first i).length = d.length ∧
      List.Perm (heapPop d first i) d ∧
      (∀ m, m < first ∨ first + hi0 ≤ m → (heapPop d first i)[m]? = d[m]?) ∧
      SortedSeg (heapPop d first i) first (first + hi0) := by
  intro i
  induction i with
  | zero =>
    intro d hlen hi0pos hheap hsorted hsep
    have h := heapPopStep_post first hi0 0 d hlen hi0pos hheap hsorted hsep
    refine ⟨h.1, h.2.1, h.2.2.1, ?_⟩
    have hs := h.2.2.2.2.1
    rw [Nat.add_zero] at hs
    exact hs
  | succ i2 ih =>
    intro d hlen hilt hheap hsorted hsep
    have hstep : heapPop d first (i2 + 1) = heapPop (heapPopStep d first (i2 + 1)) first i2 := rfl
    have h1 := heapPopStep_post first hi0 (i2 + 1) d hlen hilt hheap hsorted hsep
    have hrec := ih (heapPopStep d first (i2 + 1)) (by rw [h1.1]; exact hlen) (by omega)
      h1.2.2.2.1
      (by
        have := h1.2.2.2.2.1
        rw [show first + (i2 + 1) = first + i2 + 1 from by omega] at this
        exact this)
      (by
        intro x hx q hq hqlt
        exact h1.2.2.2.2.2 x (by rwa [show first + (i2 + 1) = first + i2 + 1 from by omega])
          q (by omega) hqlt)
    rw [hstep]
    refine ⟨hrec.1.trans h1.1, hrec.2.1.trans h1.2.1, ?_, hrec.2.2.2⟩
    intro m hm
    rw [hrec.2.2.1 m hm]
    exact h1.2.2.1 m hm

theorem heapSortGo_post (d : Commands) (a b : Nat) (hab : a < b) (hb : b ≤ d.length) :
    (heapSortGo d a b).length = d.length ∧
    List.Perm (heapSortGo d a b) d ∧
    (∀ m, m < a ∨ b ≤ m → (heapSortGo d a b)[m]? = d[m]?) ∧
    SortedSeg (heapSortGo d a b) a b := by
  unfold heapSortGo
  have hinit : HeapFrom d a (b - a) ((b - a - 1) / 2 + 1) := by
    intro r c hr hc hrel
    omega
  rw [if_neg (show ¬ b - a = 0 by omega)]
  have hbuild := heapBuild_post a (b - a) ((b - a - 1) / 2) d (by omega) hinit
  have hpop := heapPop_post a (b - a) (b - a - 1) (heapBuild d (b - a) a ((b - a - 1) / 2))
    (by rw [hbuild.1]; omega) (by omega)
    (by
      have hh := hbuild.2.2.2
      rwa [show b - a - 1 + 1 = b - a from by omega])
    (sortedSeg_trivial _ (a + (b - a - 1) + 1) (a + (b - a)) (by omega))
    (by
      intro x hx q hq hqlt
      omega)
  refine ⟨hpop.1.trans hbuild.1, hpop.2.1.trans hbuild.2.1, ?_, ?_⟩
  · intro m hm
    rw [hpop.2.2.1 m (by omega)]
    exact hbuild.2.2.1 m (by omega)
  · have hs := hpop.2.2.2
    rwa [show a + (b - a) = b from by omega] at hs

theorem medianOfThree_post (d : Commands) (m1 m0 m2 : Nat)
    (h1 : m1 < d.length) (h0 : m0 < d.length) (h2 : m2 < d.length) :
    (medianOfThree d m1 m0 m2).length = d.length ∧
    List.Perm (medianOfThree d m1 m0 m2) d ∧
    (∀ m, m ≠ m1 → m ≠ m0 → m ≠ m2 → (medianOfThree d m1 m0 m2)[m]? = d[m]?) := by
  have step : ∀ (e : Commands) (i j : Nat),
      (i = m1 ∨ i = m0 ∨ i = m2) → (j = m1 ∨ j = m0 ∨ j = m2) →
      (e.length = d.length ∧ List.Perm e d ∧
        (∀ m, m ≠ m1 → m ≠ m0 → m ≠ m2 → e[m]? = d[m]?)) →
      ((swapL e i j).length = d.length ∧ List.Perm (swapL e i j) d ∧
        (∀ m, m ≠ m1 → m ≠ m0 → m ≠ m2 → (swapL e i j)[m]? = d[m]?)) := by
    rintro e i j hiC hjC ⟨hl, hp, hf⟩
    have hie : i < e.length := by
      rw [hl]
      rcases hiC with h | h | h <;> omega
    have hje : j < e.length := by
      rw [hl]
      rcases hjC with h | h | h <;> omega
    refine ⟨(length_swapL e i j).trans hl, (swapL_perm e i j hie hje).trans hp, ?_⟩
    intro m hm1 hm0 hm2
    rw [getElem?_swapL_frame e i j m ?_ ?_]
    · exact hf m hm1 hm0 hm2
    · rcases hiC with h | h | h <;> omega
    · rcases hjC with h | h | h <;> omega
  have base : d.length = d.length ∧ List.Perm d d ∧
      (∀ m, m ≠ m1 → m ≠ m0 → m ≠ m2 → d[m]? = d[m]?) :=
    ⟨rfl, List.Perm.refl d, fun m _ _ _ => rfl⟩
  by_cases cA : revByScoreLess (getC d m1) (getC d m0) = true
  · simp only [medianOfThree, cA, if_true]
    by_cases cB : revByScoreLess (getC (swapL d m1 m0) m2) (getC (swapL d m1 m0) m1) = true
    · simp only [cB, if_true]
      by_cases cC : revByScoreLess (getC (swapL (swapL d m1 m0) m2 m1) m1)
          (getC (swapL (swapL d m1 m0) m2 m1) m0) = true
      · simp only [cC, if_true]
        exact step _ m1 m0 (Or.inl rfl) (Or.inr (Or.inl rfl))
          (step _ m2 m1 (Or.inr (Or.inr rfl)) (Or.inl rfl)
            (step _ m1 m0 (Or.inl rfl) (Or.inr (Or.inl rfl)) base))
      · simp only [Bool.not_eq_true] at cC
        simp only [cC, Bool.false_eq_true, if_false]
        exact step _ m2 m1 (Or.inr (Or.inr rfl)) (Or.inl rfl)
          (step _ m1 m0 (Or.inl rfl) (Or.inr (Or.inl rfl)) base)
    · simp only [Bool.not_eq_true] at cB
      simp only [cB, Bool.false_eq_true, if_false]
      exact step _ m1 m0 (Or.inl rfl) (Or.inr (Or.inl rfl)) base
  · simp only [Bool.not_eq_true] at cA
    simp only [medianOfThree, cA, Bool.false_eq_true, if_false]
    by_cases cB : revByScoreLess (getC d m2) (getC d m1) = true
    · simp only [cB, if_true]
      by_cases cC : revByScoreLess (getC (swapL d m2 m1) m1) (getC (swapL d m2 m1) m0) = true
      · simp only [cC, if_true]
        exact step _ m1 m0 (Or.inl rfl) (Or.inr (Or.inl rfl))
          (step _ m2 m1 (Or.inr (Or.inr rfl)) (Or.inl rfl) base)
      · simp only [Bool.not_eq_true] at cC
        simp only [cC, Bool.false_eq_true, if_false]
        exact step _ m2 m1 (Or.inr (Or.inr rfl)) (Or.inl rfl) base
    · simp only [Bool.not_eq_true] at cB
      simp only [cB, Bool.false_eq_true, if_false]
      exact ⟨trivial, List.Perm.refl d, fun m _ _ _ => trivial⟩

theorem dpScanA_post (d : Commands) (c pivot : Nat) :
    ∀ (fuel a : Nat), c - a < fuel →
      a ≤ dpScanA d c pivot a fuel ∧
      dpScanA d c pivot a fuel ≤ max a c ∧
      (∀ i, a ≤ i → i < dpScanA d c pivot a fuel →
        i < c ∧ revByScoreLess (getC d i) (getC d pivot) = true) ∧
      (dpScanA d c pivot a fuel < c →
        revByScoreLess (getC d (dpScanA d c pivot a fuel)) (getC d pivot) = false) := by
  intro fuel
  induction fuel with
  | zero =>
    intro a hfuel
    omega
  | succ f ih =>
    intro a hfuel
    by_cases hcond : (decide (a < c) && revByScoreLess (getC d a) (getC d pivot)) = true
    · have hstep : dpScanA d c pivot a (f + 1) = dpScanA d c pivot (a + 1) f := by
        simp only [dpScanA]
        rw [if_pos hcond]
      simp only [Bool.and_eq_true, decide_eq_true_eq] at hcond
      have hrec := ih (a + 1) (by omega)
      rw [hstep]
      refine ⟨by omega, by omega, ?_, hrec.2.2.2⟩
      intro i hi hilt
      by_cases hia : i = a
      · subst hia
        exact ⟨hcond.1, hcond.2⟩
      · exact hrec.2.2.1 i (by omega) hilt
    · have hstep : dpScanA d c pivot a (f + 1) = a := by
        simp only [dpScanA]
        rw [if_neg hcond]
      rw [hstep]
      refine ⟨le_refl a, by omega, fun i h1 h2 => by omega, ?_⟩
      intro hac
      simp only [Bool.and_eq_true, decide_eq_true_eq, not_and, Bool.not_eq_true] at hcond
      exact hcond hac

theorem dpScanB_post (d : Commands) (c pivot : Nat) :
    ∀ (fuel b : Nat), c - b < fuel →
      b ≤ dpScanB d c pivot b fuel ∧
      dpScanB d c pivot b fuel ≤ max b c ∧
      (∀ i, b ≤ i → i < dpScanB d c pivot b fuel →
        i < c ∧ revByScoreLess (getC d pivot) (getC d i) = false) ∧
      (dpScanB d c pivot b fuel < c →
        revByScoreLess (getC d pivot) (getC d (dpScanB d c pivot b fuel)) = true) := by
  intro fuel
  induction fuel with
  | zero =>
    intro b hfuel
    omega
  | succ f ih =>
    intro b hfuel
    by_cases hcond : (decide (b < c) && !revByScoreLess (getC d pivot) (getC d b)) = true
    · have hstep : dpScanB d c pivot b (f + 1) = dpScanB d c pivot (b + 1) f := by
        simp only [dpScanB]
        rw [if_pos hcond]
      simp only [Bool.and_eq_true, decide_eq_true_eq, Bool.not_eq_true'] at hcond
      have hrec := ih (b + 1) (by omega)
      rw [hstep]
      refine ⟨by omega, by omega, ?_, hrec.2.2.2⟩
      intro i hi hilt
      by_cases hib : i = b
      · subst hib
        exact ⟨hcond.1, hcond.2⟩
      · exact hrec.2.2.1 i (by omega) hilt
    · have hstep : dpScanB d c pivot b (f + 1) = b := by
        simp only [dpScanB]
        rw [if_neg hcond]
      rw [hstep]
      refine ⟨le_refl b, by omega, fun i h1 h2 => by omega, ?_⟩
      intro hbc
      simp only [Bool.and_eq_true, decide_eq_true_eq, not_and, Bool.not_eq_true',
        Bool.not_eq_false] at hcond
      exact hcond hbc

theorem dpScanC_post (d : Commands) (b pivot : Nat) :
    ∀ (fuel c : Nat), c - b < fuel →
      dpScanC d b pivot c fuel ≤ c ∧
      min b c ≤ dpScanC d b pivot c fuel ∧
      (∀ j, dpScanC d b pivot c fuel ≤ j → j < c →
        revByScoreLess (getC d pivot) (getC d j) = true) ∧
      (b < dpScanC d b pivot c fuel →
        revByScoreLess (getC d pivot) (getC d (dpScanC d b pivot c fuel - 1)) = false) := by
  intro fuel
  induction fuel with
  | zero =>
    intro c hfuel
    omega
  | succ f ih =>
    intro c hfuel
    by_cases hcond : (decide (b < c) && revByScoreLess (getC d pivot) (getC d (c - 1))) = true
    · have hstep : dpScanC d b pivot c (f + 1) = dpScanC d b pivot (c - 1) f := by
        simp only [dpScanC]
        rw [if_pos hcond]
      simp only [Bool.and_eq_true, decide_eq_true_eq] at hcond
      have hrec := ih (c - 1) (by omega)
      rw [hstep]
      refine ⟨by omega, by omega, ?_, hrec.2.2.2⟩
      intro j hj hjlt
      by_cases hjc : j = c - 1
      · subst hjc
        exact hcond.2
      · exact hrec.2.2.1 j hj (by omega)
    · have hstep : dpScanC d b pivot c (f + 1) = c := by
        simp only [dpScanC]
        rw [if_neg hcond]
      rw [hstep]
      refine ⟨le_refl c, by omega, fun j h1 h2 => by omega, ?_⟩
      intro hbc
      simp only [Bool.and_eq_true, decide_eq_true_eq, not_and, Bool.not_eq_true] at hcond
      exact hcond hbc

theorem dpMainLoop_post (lo hi : Nat) (pv : Command) :
    ∀ (fuel : Nat) (d : Commands) (b c : Nat),
      hi ≤ d.length → lo + 2 ≤ hi → lo + 1 ≤ b → b ≤ c + 1 → lo + 1 ≤ c → c ≤ hi - 1 →
      c - b < fuel →
      getC d lo = pv →
      (∀ i, lo + 1 ≤ i → i < b → pv.calls ≤ (getC d i).calls) →
      (∀ j, c ≤ j → j < hi - 1 → (getC d j).calls < pv.calls) →
      (dpMainLoop lo d b c fuel).1.length = d.length ∧
      List.Perm (dpMainLoop lo d b c fuel).1 d ∧
      (∀ m, m < lo + 1 ∨ hi - 1 ≤ m → (dpMainLoop lo d b c fuel).1[m]? = d[m]?) ∧
      (dpMainLoop lo d b c fuel).2.2 ≤ (dpMainLoop lo d b c fuel).2.1 ∧
      (dpMainLoop lo d b c fuel).2.1 ≤ (dpMainLoop lo d b c fuel).2.2 + 1 ∧
      lo + 1 ≤ (dpMainLoop lo d b c fuel).2.1 ∧
      lo + 1 ≤ (dpMainLoop lo d b c fuel).2.2 ∧
      (dpMainLoop lo d b c fuel).2.2 ≤ c ∧
      getC (dpMainLoop lo d b c fuel).1 lo = pv ∧
      (∀ i, lo + 1 ≤ i → i < (dpMainLoop lo d b c fuel).2.1 →
        pv.calls ≤ (getC (dpMainLoop lo d b c fuel).1 i).calls) ∧
      (∀ j, (dpMainLoop lo d b c fuel).2.2 ≤ j → j < hi - 1 →
        (getC (dpMainLoop lo d b c fuel).1 j).calls < pv.calls) := by
  intro fuel
  induction fuel with
  | zero =>
    intro d b c _ _ _ _ _ _ hfuel
    omega
  | succ f ih =>
    intro d b c hlen hlohi hlob hbc hloc hchi hfuel hpv hL hR
    have hB := dpScanB_post d c lo (c - b + 1) b (by omega)
    set b1 := dpScanB d c lo b (c - b + 1) with hb1def
    have hC := dpScanC_post d b1 lo (c - b1 + 1) c (by omega)
    set c1 := dpScanC d b1 lo c (c - b1 + 1) with hc1def
    clear_value b1 c1
    have hLb1 : ∀ i, lo + 1 ≤ i → i < b1 → pv.calls ≤ (getC d i).calls := by
      intro i h1 h2
      by_cases hib : i < b
      · exact hL i h1 hib
      · have := (hB.2.2.1 i (by omega) h2).2
        rw [hpv] at this
        simp only [revByScoreLess, decide_eq_false_iff_not, not_lt] at this
        exact this
    have hRc1 : ∀ j, c1 ≤ j → j < hi - 1 → (getC d j).calls < pv.calls := by
      intro j h1 h2
      by_cases hjc : j < c
      · have := hC.2.2.1 j h1 hjc
        rw [hpv] at this
        simp only [revByScoreLess, decide_eq_true_eq] at this
        exact this
      · exact hR j (by omega) h2
    by_cases hbreak : b1 ≥ c1
    · have hstep : dpMainLoop lo d b c (f + 1) = (d, b1, c1) := by
        simp only [dpMainLoop]
        rw [← hb1def, ← hc1def, if_pos hbreak]
      rw [hstep]
      exact ⟨rfl, List.Perm.refl d, fun m _ => rfl, hbreak, show b1 ≤ c1 + 1 by omega,
        show lo + 1 ≤ b1 by omega, show lo + 1 ≤ c1 by omega, show c1 ≤ c by omega,
        hpv, hLb1, hRc1⟩
    · push_neg at hbreak
      have hc1len : c1 - 1 < d.length := by omega
      have hb1len : b1 < d.length := by omega
      have hstep : dpMainLoop lo d b c (f + 1) =
          dpMainLoop lo (swapL d b1 (c1 - 1)) (b1 + 1) (c1 - 1) f := by
        simp only [dpMainLoop]
        rw [← hb1def, ← hc1def, if_neg (by omega)]
      set d2 := swapL d b1 (c1 - 1) with hd2def
      have hget2 : ∀ m, getC d2 m =
          if m = c1 - 1 then getC d b1 else if m = b1 then getC d (c1 - 1) else getC d m :=
        fun m => getC_swapL d b1 (c1 - 1) m hb1len hc1len
      have hb1c : b1 < c := by omega
      have hstopB : (getC d b1).calls < pv.calls := by
        have := hB.2.2.2 hb1c
        rw [hpv] at this
        simp only [revByScoreLess, decide_eq_true_eq] at this
        exact this
      have hstopC : pv.calls ≤ (getC d (c1 - 1)).calls := by
        have := hC.2.2.2 hbreak
        rw [hpv] at this
        simp only [revByScoreLess, decide_eq_false_iff_not, not_lt] at this
        exact this
      have hneq : b1 ≠ c1 - 1 := by
        intro hbad
        rw [hbad] at hstopB
        omega
      have hrec := ih d2 (b1 + 1) (c1 - 1)
        (by rw [hd2def, length_swapL]; exact hlen) hlohi (by omega) (by omega) (by omega)
        (by omega) (by omega)
        (by
          rw [hget2 lo, if_neg (by omega), if_neg (by omega)]
          exact hpv)
        (by
          intro i h1 h2
          rw [hget2 i]
          by_cases hib1 : i = b1
          · rw [if_neg (by omega), if_pos hib1]
            exact hstopC
          · rw [if_neg (by omega), if_neg hib1]
            exact hLb1 i h1 (by omega))
        (by
          intro j h1 h2
          rw [hget2 j]
          by_cases hjc1 : j = c1 - 1
          · rw [if_pos hjc1]
            exact hstopB
          · rw [if_neg hjc1, if_neg (by omega)]
            exact hRc1 j (by omega) h2)
      rw [hstep]
      obtain ⟨r1, r2, r3, r4, r5, r6, r7, r8, r9, r10, r11⟩ := hrec
      refine ⟨r1.trans (by rw [hd2def, length_swapL]),
        r2.trans (swapL_perm d b1 (c1 - 1) hb1len hc1len), ?_,
        r4, r5, r6, r7, by omega, r9, r10, r11⟩
      intro m hm
      rw [r3 m (by omega)]
      exact getElem?_swapL_frame d b1 (c1 - 1) m (by omega) (by omega)

theorem dpProtScanB_post (d : Commands) (a pivot : Nat) :
    ∀ (fuel b : Nat), b - a < fuel →
      dpProtScanB d a pivot b fuel ≤ b ∧
      min a b ≤ dpProtScanB d a pivot b fuel ∧
      (∀ j, dpProtScanB d a pivot b fuel ≤ j → j < b →
        revByScoreLess (getC d j) (getC d pivot) = false) ∧
      (a < dpProtScanB d a pivot b fuel →
        revByScoreLess (getC d (dpProtScanB d a pivot b fuel - 1)) (getC d pivot) = true) := by
  intro fuel
  induction fuel with
  | zero =>
    intro b hfuel
    omega
  | succ f ih =>
    intro b hfuel
    by_cases hcond : (decide (a < b) && !revByScoreLess (getC d (b - 1)) (getC d pivot)) = true
    · have hstep : dpProtScanB d a pivot b (f + 1) = dpProtScanB d a pivot (b - 1) f := by
        simp only [dpProtScanB]
        rw [if_pos hcond]
      simp only [Bool.and_eq_true, decide_eq_true_eq, Bool.not_eq_true'] at hcond
      have hrec := ih (b - 1) (by omega)
      rw [hstep]
      refine ⟨by omega, by omega, ?_, hrec.2.2.2⟩
      intro j hj hjb
      by_cases hjb1 : j = b - 1
      · subst hjb1
        exact hcond.2
      · exact hrec.2.2.1 j hj (by omega)
    · have hstep : dpProtScanB d a pivot b (f + 1) = b := by
        simp only [dpProtScanB]
        rw [if_neg hcond]
      rw [hstep]
      refine ⟨le_refl b, by omega, fun j h1 h2 => by omega, ?_⟩
      intro hab
      simp only [Bool.and_eq_true, decide_eq_true_eq, not_and, Bool.not_eq_true',
        Bool.not_eq_false] at hcond
      exact hcond hab

theorem dpProtScanA_post (d : Commands) (b pivot : Nat) :
    ∀ (fuel a : Nat), b - a < fuel →
      a ≤ dpProtScanA d b pivot a fuel ∧
      dpProtScanA d b pivot a fuel ≤ max a b ∧
      (∀ i, a ≤ i → i < dpProtScanA d b pivot a fuel →
        i < b ∧ revByScoreLess (getC d i) (getC d pivot) = true) ∧
      (dpProtScanA d b pivot a fuel < b →
        revByScoreLess (getC d (dpProtScanA d b pivot a fuel)) (getC d pivot) = false) := by
  intro fuel
  induction fuel with
  | zero =>
    intro a hfuel
    omega
  | succ f ih =>
    intro a hfuel
    by_cases hcond : (decide (a < b) && revByScoreLess (getC d a) (getC d pivot)) = true
    · have hstep : dpProtScanA d b pivot a (f + 1) = dpProtScanA d b pivot (a + 1) f := by
        simp only [dpProtScanA]
        rw [if_pos hcond]
      simp only [Bool.and_eq_true, decide_eq_true_eq] at hcond
      have hrec := ih (a + 1) (by omega)
      rw [hstep]
      refine ⟨by omega, by omega, ?_, hrec.2.2.2⟩
      intro i hi hia
      by_cases hia2 : i = a
      · subst hia2
        exact ⟨hcond.1, hcond.2⟩
      · exact hrec.2.2.1 i (by omega) hia
    · have hstep : dpProtScanA d b pivot a (f + 1) = a := by
        simp only [dpProtScanA]
        rw [if_neg hcond]
      rw [hstep]
      refine ⟨le_refl a, by omega, fun i h1 h2 => by omega, ?_⟩
      intro hab
      simp only [Bool.and_eq_true, decide_eq_true_eq, not_and, Bool.not_eq_true] at hcond
      exact hcond hab

theorem dpProtLoop_post (lo hi c : Nat) (pv : Command) :
    ∀ (fuel : Nat) (d : Commands) (a b : Nat),
      hi ≤ d.length → lo + 1 ≤ a → lo + 1 ≤ b → b ≤ hi → b - a < fuel →
      getC d lo = pv →
      (∀ i, lo + 1 ≤ i → i < b → pv.calls ≤ (getC d i).calls) →
      (∀ j, b ≤ j → j < c → (getC d j).calls = pv.calls) →
      (dpProtLoop lo d a b fuel).1.length = d.length ∧
      List.Perm (dpProtLoop lo d a b fuel).1 d ∧
      (∀ m, m < lo + 1 ∨ b ≤ m → (dpProtLoop lo d a b fuel).1[m]? = d[m]?) ∧
      lo + 1 ≤ (dpProtLoop lo d a b fuel).2 ∧
      (dpProtLoop lo d a b fuel).2 ≤ b ∧
      getC (dpProtLoop lo d a b fuel).1 lo = pv ∧
      (∀ i, lo + 1 ≤ i → i < (dpProtLoop lo d a b fuel).2 →
        pv.calls ≤ (getC (dpProtLoop lo d a b fuel).1 i).calls) ∧
      (∀ j, (dpProtLoop lo d a b fuel).2 ≤ j → j < c →
        (getC (dpProtLoop lo d a b fuel).1 j).calls = pv.calls) := by
  intro fuel
  induction fuel with
  | zero =>
    intro d a b _ _ _ _ hfuel
    omega
  | succ f ih =>
    intro d a b hlen hloa hlob hbhi hfuel hpv hL hMID
    have hB := dpProtScanB_post d a lo (b - a + 1) b (by omega)
    set b1 := dpProtScanB d a lo b (b - a + 1) with hb1def
    have hA := dpProtScanA_post d b1 lo (b1 - a + 1) a (by omega)
    set a1 := dpProtScanA d b1 lo a (b1 - a + 1) with ha1def
    clear_value b1 a1
    have hMID1 : ∀ j, b1 ≤ j → j < c → (getC d j).calls = pv.calls := by
      intro j hj hjc
      by_cases hjb : j < b
      · have h1 := hB.2.2.1 j hj hjb
        rw [hpv] at h1
        simp only [revByScoreLess, decide_eq_false_iff_not, not_lt] at h1
        have h2 := hL j (by omega) hjb
        omega
      · exact hMID j (by omega) hjc
    by_cases hbreak : a1 ≥ b1
    · have hstep : dpProtLoop lo d a b (f + 1) = (d, b1) := by
        simp only [dpProtLoop]
        rw [← hb1def, ← ha1def, if_pos hbreak]
      rw [hstep]
      exact ⟨rfl, List.Perm.refl d, fun m _ => rfl, show lo + 1 ≤ b1 by omega,
        show b1 ≤ b by omega, hpv, fun i h1 h2 => hL i h1 (by omega), hMID1⟩
    · push_neg at hbreak
      have ha1b1 : a1 < b1 := hbreak
      have ha1len : a1 < d.length := by omega
      have hb1len : b1 - 1 < d.length := by omega
      have hstep : dpProtLoop lo d a b (f + 1) =
          dpProtLoop lo (swapL d a1 (b1 - 1)) (a1 + 1) (b1 - 1) f := by
        simp only [dpProtLoop]
        rw [← hb1def, ← ha1def, if_neg (by omega)]
      set d2 := swapL d a1 (b1 - 1) with hd2def
      have hget2 : ∀ m, getC d2 m =
          if m = b1 - 1 then getC d a1 else if m = a1 then getC d (b1 - 1) else getC d m :=
        fun m => getC_swapL d a1 (b1 - 1) m ha1len hb1len
      have hstopA : (getC d a1).calls = pv.calls := by
        have h1 := hA.2.2.2 ha1b1
        rw [hpv] at h1
        simp only [revByScoreLess, decide_eq_false_iff_not, not_lt] at h1
        have h2 := hL a1 (by omega) (by omega)
        omega
      have hstopB : pv.calls < (getC d (b1 - 1)).calls := by
        have h1 := hB.2.2.2 (by omega)
        rw [hpv] at h1
        simp only [revByScoreLess, decide_eq_true_eq] at h1
        exact h1
      have hrec := ih d2 (a1 + 1) (b1 - 1)
        (by rw [hd2def, length_swapL]; exact hlen) (by omega) (by omega) (by omega) (by omega)
        (by
          rw [hget2 lo, if_neg (by omega), if_neg (by omega)]
          exact hpv)
        (by
          intro i h1 h2
          rw [hget2 i, if_neg (by omega)]
          by_cases hia : i = a1
          · rw [if_pos hia]
            omega
          · rw [if_neg hia]
            exact hL i h1 (by omega))
        (by
          intro j h1 h2
          rw [hget2 j]
          by_cases hjb : j = b1 - 1
          · rw [if_pos hjb]
            exact hstopA
          · rw [if_neg hjb, if_neg (by omega)]
            exact hMID1 j (by omega) h2)
      rw [hstep]
      obtain ⟨r1, r2, r3, r4, r5, r6, r7, r8⟩ := hrec
      refine ⟨r1.trans (by rw [hd2def, length_swapL]),
        r2.trans (swapL_perm d a1 (b1 - 1) ha1len hb1len), ?_, r4, by omega, r6, r7, r8⟩
      intro m hm
      rw [r3 m (by omega)]
      exact getElem?_swapL_frame d a1 (b1 - 1) m (by omega) (by omega)

theorem getC_frame (e e' : Commands) (i : Nat) (h : e[i]? = e'[i]?) :
    getC e i = getC e' i := by
  rw [getC_eq, getC_eq, h]

theorem medianOfThree_order (d : Commands) (m1 m0 m2 : Nat)
    (h1 : m1 < d.length) (h0 : m0 < d.length) (h2 : m2 < d.length)
    (hne10 : m1 ≠ m0) (hne12 : m1 ≠ m2) (hne02 : m0 ≠ m2) :
    (getC (medianOfThree d m1 m0 m2) m1).calls ≤ (getC (medianOfThree d m1 m0 m2) m0).calls ∧
    (getC (medianOfThree d m1 m0 m2) m2).calls ≤ (getC (medianOfThree d m1 m0 m2) m1).calls := by
  have hl1 : (swapL d m1 m0).length = d.length := length_swapL d m1 m0
  have hl2 : (swapL d m2 m1).length = d.length := length_swapL d m2 m1
  by_cases cA : revByScoreLess (getC d m1) (getC d m0) = true
  · simp only [medianOfThree, cA, if_true]
    have A1 : getC (swapL d m1 m0) m1 = getC d m0 := by
      rw [getC_swapL d m1 m0 m1 h1 h0, if_neg hne10, if_pos rfl]
    have A0 : getC (swapL d m1 m0) m0 = getC d m1 := by
      rw [getC_swapL d m1 m0 m0 h1 h0, if_pos rfl]
    have A2 : getC (swapL d m1 m0) m2 = getC d m2 := by
      rw [getC_swapL d m1 m0 m2 h1 h0, if_neg (Ne.symm hne02), if_neg (Ne.symm hne12)]
    simp only [revByScoreLess, decide_eq_true_eq] at cA
    by_cases cB : revByScoreLess (getC (swapL d m1 m0) m2) (getC (swapL d m1 m0) m1) = true
    · simp only [cB, if_true]
      have hs2 : m2 < (swapL d m1 m0).length := by rw [hl1]; exact h2
      have hs1 : m1 < (swapL d m1 m0).length := by rw [hl1]; exact h1
      have B1 : getC (swapL (swapL d m1 m0) m2 m1) m1 = getC d m2 := by
        rw [getC_swapL (swapL d m1 m0) m2 m1 m1 hs2 hs1, if_pos rfl, A2]
      have B0 : getC (swapL (swapL d m1 m0) m2 m1) m0 = getC d m1 := by
        rw [getC_swapL (swapL d m1 m0) m2 m1 m0 hs2 hs1, if_neg (Ne.symm hne10),
          if_neg hne02, A0]
      have B2 : getC (swapL (swapL d m1 m0) m2 m1) m2 = getC d m0 := by
        rw [getC_swapL (swapL d m1 m0) m2 m1 m2 hs2 hs1, if_neg (Ne.symm hne12),
          if_pos rfl, A1]
      rw [A2, A1] at cB
      simp only [revByScoreLess, decide_eq_true_eq] at cB
      by_cases cC : revByScoreLess (getC (swapL (swapL d m1 m0) m2 m1) m1)
          (getC (swapL (swapL d m1 m0) m2 m1) m0) = true
      · simp only [cC, if_true]
        rw [B1, B0] at cC
        simp only [revByScoreLess, decide_eq_true_eq] at cC
        have ht2 : m2 < (swapL (swapL d m1 m0) m2 m1).length := by rw [length_swapL, hl1]; exact h2
        have ht1 : m1 < (swapL (swapL d m1 m0) m2 m1).length := by rw [length_swapL, hl1]; exact h1
        have ht0 : m0 < (swapL (swapL d m1 m0) m2 m1).length := by rw [length_swapL, hl1]; exact h0
        have C1 : getC (swapL (swapL (swapL d m1 m0) m2 m1) m1 m0) m1 = getC d m1 := by
          rw [getC_swapL (swapL (swapL d m1 m0) m2 m1) m1 m0 m1 ht1 ht0, if_neg hne10,
            if_pos rfl, B0]
        have C0 : getC (swapL (swapL (swapL d m1 m0) m2 m1) m1 m0) m0 = getC d m2 := by
          rw [getC_swapL (swapL (swapL d m1 m0) m2 m1) m1 m0 m0 ht1 ht0, if_pos rfl, B1]
        have C2 : getC (swapL (swapL (swapL d m1 m0) m2 m1) m1 m0) m2 = getC d m0 := by
          rw [getC_swapL (swapL (swapL d m1 m0) m2 m1) m1 m0 m2 ht1 ht0,
            if_neg (Ne.symm hne02), if_neg (Ne.symm hne12), B2]
        rw [C1, C0, C2]
        omega
      · simp only [Bool.not_eq_true] at cC
        simp only [cC, Bool.false_eq_true, if_false]
        rw [B1, B0] at cC
        simp only [revByScoreLess, decide_eq_false_iff_not, not_lt] at cC
        rw [B1, B0, B2]
        omega
    · simp only [Bool.not_eq_true] at cB
      simp only [cB, Bool.false_eq_true, if_false]
      rw [A2, A1] at cB
      simp only [revByScoreLess, decide_eq_false_iff_not, not_lt] at cB
      rw [A1, A0, A2]
      omega
  · simp only [Bool.not_eq_true] at cA
    simp only [medianOfThree, cA, Bool.false_eq_true, if_false]
    simp only [revByScoreLess, decide_eq_false_iff_not, not_lt] at cA
    by_cases cB : revByScoreLess (getC d m2) (getC d m1) = true
    · simp only [cB, if_true]
      simp only [revByScoreLess, decide_eq_true_eq] at cB
      have B1 : getC (swapL d m2 m1) m1 = getC d m2 := by
        rw [getC_swapL d m2 m1 m1 h2 h1, if_pos rfl]
      have B0 : getC (swapL d m2 m1) m0 = getC d m0 := by
        rw [getC_swapL d m2 m1 m0 h2 h1, if_neg (Ne.symm hne10), if_neg hne02]
      have B2 : getC (swapL d m2 m1) m2 = getC d m1 := by
        rw [getC_swapL d m2 m1 m2 h2 h1, if_neg (Ne.symm hne12), if_pos rfl]
      by_cases cC : revByScoreLess (getC (swapL d m2 m1) m1) (getC (swapL d m2 m1) m0) = true
      · simp only [cC, if_true]
        rw [B1, B0] at cC
        simp only [revByScoreLess, decide_eq_true_eq] at cC
        have hs1 : m1 < (swapL d m2 m1).length := by rw [hl2]; exact h1
        have hs0 : m0 < (swapL d m2 m1).length := by rw [hl2]; exact h0
        have C1 : getC (swapL (swapL d m2 m1) m1 m0) m1 = getC d m0 := by
          rw [getC_swapL (swapL d m2 m1) m1 m0 m1 hs1 hs0, if_neg hne10, if_pos rfl, B0]
        have C0 : getC (swapL (swapL d m2 m1) m1 m0) m0 = getC d m2 := by
          rw [getC_swapL (swapL d m2 m1) m1 m0 m0 hs1 hs0, if_pos rfl, B1]
        have C2 : getC (swapL (swapL d m2 m1) m1 m0) m2 = getC d m1 := by
          rw [getC_swapL (swapL d m2 m1) m1 m0 m2 hs1 hs0, if_neg (Ne.symm hne02),
            if_neg (Ne.symm hne12), B2]
        rw [C1, C0, C2]
        omega
      · simp only [Bool.not_eq_true] at cC
        simp only [cC, Bool.false_eq_true, if_false]
        rw [B1, B0] at cC
        simp only [revByScoreLess, decide_eq_false_iff_not, not_lt] at cC
        rw [B1, B0, B2]
        omega
    · simp only [Bool.not_eq_true] at cB
      simp only [cB, Bool.false_eq_true, if_false]
      simp only [revByScoreLess, decide_eq_false_iff_not, not_lt] at cB
      omega

theorem dpDups_post (d : Commands) (lo hi m b c : Nat) (pv : Command)
    (hlen : hi ≤ d.length) (hlo12 : lo + 12 < hi)
    (hm : m = (lo + hi) / 2)
    (hcb : c ≤ b) (hbc1 : b ≤ c + 1)
    (hc5 : 5 ≤ hi - c) (hc4 : hi - c < (hi - lo) / 4)
    (hpv : getC d lo = pv)
    (hL : ∀ i, lo + 1 ≤ i → i < b → pv.calls ≤ (getC d i).calls)
    (hR : ∀ j, c ≤ j → j < hi - 1 → (getC d j).calls < pv.calls)
    (hHi : (getC d (hi - 1)).calls ≤ pv.calls) :
    (dpDups d m lo b c hi).1.length = d.length ∧
    List.Perm (dpDups d m lo b c hi).1 d ∧
    (∀ i, i < lo + 1 ∨ hi ≤ i → (dpDups d m lo b c hi).1[i]? = d[i]?) ∧
    lo + 1 ≤ (dpDups d m lo b c hi).2.1 ∧
    (dpDups d m lo b c hi).2.1 ≤ b ∧
    c ≤ (dpDups d m lo b c hi).2.2.1 ∧
    (dpDups d m lo b c hi).2.2.1 ≤ c + 1 ∧
    getC (dpDups d m lo b c hi).1 lo = pv ∧
    (∀ i, lo + 1 ≤ i → i < (dpDups d m lo b c hi).2.1 →
      pv.calls ≤ (getC (dpDups d m lo b c hi).1 i).calls) ∧
    (∀ j, (dpDups d m lo b c hi).2.1 ≤ j → j < (dpDups d m lo b c hi).2.2.1 →
      (getC (dpDups d m lo b c hi).1 j).calls = pv.calls) ∧
    (∀ j, (dpDups d m lo b c hi).2.2.1 ≤ j → j < hi →
      (getC (dpDups d m lo b c hi).1 j).calls ≤ pv.calls) ∧
    (2 ≤ (dpDups d m lo b c hi).2.2.2 →
      (dpDups d m lo b c hi).2.1 < (dpDups d m lo b c hi).2.2.1) := by
  obtain ⟨t1, ht1⟩ : ∃ t : Commands × Nat × Nat,
      t = (if (!revByScoreLess (getC d lo) (getC d (hi - 1))) = true
        then (swapL d c (hi - 1), c + 1, 1) else (d, c, 0)) := ⟨_, rfl⟩
  obtain ⟨t2, ht2⟩ : ∃ t : Nat × Nat,
      t = (if (!revByScoreLess (getC t1.1 (b - 1)) (getC t1.1 lo)) = true
        then (b - 1, t1.2.2 + 1) else (b, t1.2.2)) := ⟨_, rfl⟩
  obtain ⟨t3, ht3⟩ : ∃ t : Commands × Nat × Nat,
      t = (if (!revByScoreLess (getC t1.1 m) (getC t1.1 lo)) = true
        then (swapL t1.1 m (t2.1 - 1), t2.1 - 1, t2.2 + 1) else (t1.1, t2.1, t2.2)) :=
    ⟨_, rfl⟩
  have hdd : dpDups d m lo b c hi = (t3.1, t3.2.1, t1.2.1, t3.2.2) := by
    rw [ht3, ht2, ht1]
    rfl
  have hclen : c < d.length := by omega
  have hhlen : hi - 1 < d.length := by omega
  have P1 : t1.1.length = d.length ∧ List.Perm t1.1 d ∧
      (∀ i, i ≠ c → i ≠ hi - 1 → t1.1[i]? = d[i]?) ∧
      getC t1.1 lo = pv ∧
      (∀ i, lo + 1 ≤ i → i < b → pv.calls ≤ (getC t1.1 i).calls) ∧
      (∀ j, b ≤ j → j < t1.2.1 → (getC t1.1 j).calls = pv.calls) ∧
      (∀ j, t1.2.1 ≤ j → j < hi → (getC t1.1 j).calls ≤ pv.calls) ∧
      t1.2.1 = c + t1.2.2 ∧ t1.2.2 ≤ 1 := by
    rw [ht1]
    by_cases hS1 : (!revByScoreLess (getC d lo) (getC d (hi - 1))) = true
    · rw [if_pos hS1]
      simp only [Bool.not_eq_true'] at hS1
      simp only [revByScoreLess, decide_eq_false_iff_not, not_lt] at hS1
      rw [hpv] at hS1
      have hEq : (getC d (hi - 1)).calls = pv.calls := by omega
      have gsw : ∀ i, getC (swapL d c (hi - 1)) i =
          if i = hi - 1 then getC d c else if i = c then getC d (hi - 1) else getC d i :=
        fun i => getC_swapL d c (hi - 1) i hclen hhlen
      refine ⟨length_swapL d c (hi - 1), swapL_perm d c (hi - 1) hclen hhlen, ?_, ?_, ?_,
        ?_, ?_, rfl, le_refl 1⟩
      · intro i h1 h2
        exact getElem?_swapL_frame d c (hi - 1) i h1 h2
      · show getC (swapL d c (hi - 1)) lo = pv
        rw [gsw lo, if_neg (show ¬ lo = hi - 1 by omega), if_neg (show ¬ lo = c by omega)]
        exact hpv
      · intro i h1 h2
        show pv.calls ≤ (getC (swapL d c (hi - 1)) i).calls
        rw [gsw i, if_neg (show ¬ i = hi - 1 by omega)]
        by_cases hic : i = c
        · rw [if_pos hic]
          omega
        · rw [if_neg hic]
          exact hL i h1 h2
      · intro j hj hjc
        show (getC (swapL d c (hi - 1)) j).calls = pv.calls
        have hjc' : j < c + 1 := hjc
        rw [gsw j, if_neg (show ¬ j = hi - 1 by omega), if_pos (show j = c by omega)]
        exact hEq
      · intro j hj hjhi
        show (getC (swapL d c (hi - 1)) j).calls ≤ pv.calls
        have hj' : c + 1 ≤ j := hj
        rw [gsw j]
        by_cases hjh : j = hi - 1
        · rw [if_pos hjh]
          have := hR c (le_refl c) (by omega)
          omega
        · rw [if_neg hjh, if_neg (show ¬ j = c by omega)]
          have := hR j (by omega) (by omega)
          omega
    · rw [if_neg hS1]
      refine ⟨rfl, List.Perm.refl d, fun i _ _ => rfl, hpv, hL, ?_, ?_, rfl, Nat.zero_le 1⟩
      · intro j hj hjc
        exfalso
        have h1 : b ≤ j := hj
        have h2 : j < c := hjc
        omega
      · intro j hj hjhi
        show (getC d j).calls ≤ pv.calls
        have hj' : c ≤ j := hj
        by_cases hjh : j = hi - 1
        · rw [hjh]
          exact hHi
        · have := hR j hj' (by omega)
          omega
  obtain ⟨q1len, q1perm, q1frame, q1pv, q1L, q1M, q1R, q1k, q1kle⟩ := P1
  have P2 : (b - 1 ≤ t2.1 ∧ t2.1 ≤ b) ∧ t2.2 = t1.2.2 + (b - t2.1) ∧
      (∀ j, t2.1 ≤ j → j < t1.2.1 → (getC t1.1 j).calls = pv.calls) := by
    rw [ht2]
    by_cases hS2 : (!revByScoreLess (getC t1.1 (b - 1)) (getC t1.1 lo)) = true
    · rw [if_pos hS2]
      simp only [Bool.not_eq_true'] at hS2
      rw [q1pv] at hS2
      simp only [revByScoreLess, decide_eq_false_iff_not, not_lt] at hS2
      have hbm : (getC t1.1 (b - 1)).calls = pv.calls := by
        have := q1L (b - 1) (by omega) (by omega)
        omega
      refine ⟨⟨le_refl (b - 1), ?_⟩, ?_, ?_⟩
      · show b - 1 ≤ b
        omega
      · show t1.2.2 + 1 = t1.2.2 + (b - (b - 1))
        omega
      · intro j hj hjc
        have hj' : b - 1 ≤ j := hj
        by_cases hjb : j = b - 1
        · rw [hjb]
          exact hbm
        · exact q1M j (by omega) hjc
    · rw [if_neg hS2]
      refine ⟨⟨?_, le_refl b⟩, ?_, ?_⟩
      · show b - 1 ≤ b
        omega
      · show t1.2.2 = t1.2.2 + (b - b)
        omega
      · intro j hj hjc
        have hj' : b ≤ j := hj
        exact q1M j hj' hjc
  obtain ⟨⟨q2b1, q2b2⟩, q2k, q2M⟩ := P2
  have hmlen : m < t1.1.length := by rw [q1len]; omega
  have hb1len : t2.1 - 1 < t1.1.length := by rw [q1len]; omega
  have P3 : t3.1.length = t1.1.length ∧ List.Perm t3.1 t1.1 ∧
      (∀ i, i ≠ m → i ≠ t2.1 - 1 → t3.1[i]? = t1.1[i]?) ∧
      (t2.1 - 1 ≤ t3.2.1 ∧ t3.2.1 ≤ t2.1) ∧ t3.2.2 = t2.2 + (t2.1 - t3.2.1) ∧
      getC t3.1 lo = pv ∧
      (∀ i, lo + 1 ≤ i → i < t3.2.1 → pv.calls ≤ (getC t3.1 i).calls) ∧
      (∀ j, t3.2.1 ≤ j → j < t1.2.1 → (getC t3.1 j).calls = pv.calls) ∧
      (∀ j, t1.2.1 ≤ j → j < hi → (getC t3.1 j).calls ≤ pv.calls) := by
    rw [ht3]
    by_cases hS3 : (!revByScoreLess (getC t1.1 m) (getC t1.1 lo)) = true
    · rw [if_pos hS3]
      simp only [Bool.not_eq_true'] at hS3
      rw [q1pv] at hS3
      simp only [revByScoreLess, decide_eq_false_iff_not, not_lt] at hS3
      have hmval : (getC t1.1 m).calls = pv.calls := by
        have := q1L m (by omega) (by omega)
        omega
      have hb1val : pv.calls ≤ (getC t1.1 (t2.1 - 1)).calls :=
        q1L (t2.1 - 1) (by omega) (by omega)
      have gsw : ∀ i, getC (swapL t1.1 m (t2.1 - 1)) i =
          if i = t2.1 - 1 then getC t1.1 m
          else if i = m then getC t1.1 (t2.1 - 1) else getC t1.1 i :=
        fun i => getC_swapL t1.1 m (t2.1 - 1) i hmlen hb1len
      refine ⟨length_swapL t1.1 m (t2.1 - 1), swapL_perm t1.1 m (t2.1 - 1) hmlen hb1len,
        ?_, ⟨le_refl (t2.1 - 1), ?_⟩, ?_, ?_, ?_, ?_, ?_⟩
      · intro i h1 h2
        exact getElem?_swapL_frame t1.1 m (t2.1 - 1) i h1 h2
      · show t2.1 - 1 ≤ t2.1
        omega
      · show t2.2 + 1 = t2.2 + (t2.1 - (t2.1 - 1))
        omega
      · show getC (swapL t1.1 m (t2.1 - 1)) lo = pv
        rw [gsw lo, if_neg (show ¬ lo = t2.1 - 1 by omega), if_neg (show ¬ lo = m by omega)]
        exact q1pv
      · intro i h1 h2
        show pv.calls ≤ (getC (swapL t1.1 m (t2.1 - 1)) i).calls
        have h2' : i < t2.1 - 1 := h2
        rw [gsw i, if_neg (show ¬ i = t2.1 - 1 by omega)]
        by_cases him : i = m
        · rw [if_pos him]
          exact hb1val
        · rw [if_neg him]
          exact q1L i h1 (by omega)
      · intro j hj hjc
        show (getC (swapL t1.1 m (t2.1 - 1)) j).calls = pv.calls
        have hj' : t2.1 - 1 ≤ j := hj
        rw [gsw j]
        by_cases hjb : j = t2.1 - 1
        · rw [if_pos hjb]
          exact hmval
        · rw [if_neg hjb, if_neg (show ¬ j = m by omega)]
          exact q2M j (by omega) hjc
      · intro j hj hjhi
        show (getC (swapL t1.1 m (t2.1 - 1)) j).calls ≤ pv.calls
        have hj' : t1.2.1 ≤ j := hj
        have hc1b : c ≤ t1.2.1 := by omega
        rw [gsw j]
        by_cases hjb : j = t2.1 - 1
        · rw [if_pos hjb]
          omega
        · rw [if_neg hjb, if_neg (show ¬ j = m by omega)]
          exact q1R j hj hjhi
    · rw [if_neg hS3]
      refine ⟨rfl, List.Perm.refl t1.1, fun i _ _ => rfl, ⟨?_, le_refl t2.1⟩, ?_, q1pv,
        ?_, q2M, q1R⟩
      · show t2.1 - 1 ≤ t2.1
        omega
      · show t2.2 = t2.2 + (t2.1 - t2.1)
        omega
      · intro i h1 h2
        have h2' : i < t2.1 := h2
        exact q1L i h1 (by omega)
  obtain ⟨q3len, q3perm, q3frame, ⟨q3b1, q3b2⟩, q3k, q3pv, q3L, q3M, q3R⟩ := P3
  rw [hdd]
  refine ⟨q3len.trans q1len, q3perm.trans q1perm, ?_,
    show lo + 1 ≤ t3.2.1 by omega, show t3.2.1 ≤ b by omega,
    show c ≤ t1.2.1 by omega, show t1.2.1 ≤ c + 1 by omega,
    q3pv, q3L, q3M, q3R, ?_⟩
  · intro i h1
    show t3.1[i]? = d[i]?
    rw [q3frame i (by omega) (by omega)]
    exact q1frame i (by omega) (by omega)
  · show 2 ≤ t3.2.2 → t3.2.1 < t1.2.1
    omega

theorem doPivotGo_post (d : Commands) (lo hi : Nat)
    (hlen : hi ≤ d.length) (hlo12 : lo + 12 < hi) :
    ∃ pv : Command,
      (doPivotGo d lo hi).1.length = d.length ∧
      List.Perm (doPivotGo d lo hi).1 d ∧
      (∀ i, i < lo ∨ hi ≤ i → (doPivotGo d lo hi).1[i]? = d[i]?) ∧
      lo ≤ (doPivotGo d lo hi).2.1 ∧
      (doPivotGo d lo hi).2.1 ≤ (doPivotGo d lo hi).2.2 ∧
      (doPivotGo d lo hi).2.2 ≤ hi ∧
      (doPivotGo d lo hi).2.1 < hi ∧
      lo < (doPivotGo d lo hi).2.2 ∧
      (∀ i, lo ≤ i → i < (doPivotGo d lo hi).2.1 →
        pv.calls ≤ (getC (doPivotGo d lo hi).1 i).calls) ∧
      (∀ j, (doPivotGo d lo hi).2.1 ≤ j → j < (doPivotGo d lo hi).2.2 →
        (getC (doPivotGo d lo hi).1 j).calls = pv.calls) ∧
      (∀ j, (doPivotGo d lo hi).2.2 ≤ j → j < hi →
        (getC (doPivotGo d lo hi).1 j).calls ≤ pv.calls) := by
  obtain ⟨d9, hd9⟩ : ∃ e : Commands, e =
      (if hi - lo > 40 then
        medianOfThree
          (medianOfThree
            (medianOfThree d lo (lo + (hi - lo) / 8) (lo + 2 * ((hi - lo) / 8)))
            ((lo + hi) / 2) ((lo + hi) / 2 - (hi - lo) / 8) ((lo + hi) / 2 + (hi - lo) / 8))
          (hi - 1) (hi - 1 - (hi - lo) / 8) (hi - 1 - 2 * ((hi - lo) / 8))
       else d) := ⟨_, rfl⟩
  obtain ⟨dM, hdM⟩ : ∃ e : Commands,
      e = medianOfThree d9 lo ((lo + hi) / 2) (hi - 1) := ⟨_, rfl⟩
  obtain ⟨a1, ha1⟩ : ∃ x : Nat,
      x = dpScanA dM (hi - 1) lo (lo + 1) (hi - 1 + 1) := ⟨_, rfl⟩
  obtain ⟨R0, hR0⟩ : ∃ r : Commands × Nat × Nat,
      r = dpMainLoop lo dM a1 (hi - 1) (hi - 1 + 1) := ⟨_, rfl⟩
  obtain ⟨T, hTdef⟩ : ∃ t : Commands × Nat × Nat × Nat,
      t = (if ((!decide (hi - R0.2.2 < 5)) && decide (hi - R0.2.2 < (hi - lo) / 4)) = true
        then dpDups R0.1 ((lo + hi) / 2) lo R0.2.1 R0.2.2 hi
        else (R0.1, R0.2.1, R0.2.2, 0)) := ⟨_, rfl⟩
  obtain ⟨F, hF⟩ : ∃ f : Commands × Nat,
      f = (if (decide (hi - R0.2.2 < 5) ||
            ((!decide (hi - R0.2.2 < 5)) && decide (hi - R0.2.2 < (hi - lo) / 4)) &&
              decide (T.2.2.2 > 1)) = true
        then dpProtLoop lo T.1 a1 T.2.1 (T.2.1 + 1)
        else (T.1, T.2.1)) := ⟨_, rfl⟩
  have hdp : doPivotGo d lo hi = (swapL F.1 lo (F.2 - 1), F.2 - 1, T.2.2.1) := by
    rw [hF, hTdef, hR0, ha1, hdM, hd9]
    rfl
  have P9 : d9.length = d.length ∧ List.Perm d9 d ∧
      (∀ i, i < lo ∨ hi ≤ i → d9[i]? = d[i]?) := by
    rw [hd9]
    by_cases h40 : hi - lo > 40
    · rw [if_pos h40]
      have hs5 : 5 ≤ (hi - lo) / 8 := by omega
      have h1 := medianOfThree_post d lo (lo + (hi - lo) / 8) (lo + 2 * ((hi - lo) / 8))
        (by omega) (by omega) (by omega)
      have h2 := medianOfThree_post
        (medianOfThree d lo (lo + (hi - lo) / 8) (lo + 2 * ((hi - lo) / 8)))
        ((lo + hi) / 2) ((lo + hi) / 2 - (hi - lo) / 8) ((lo + hi) / 2 + (hi - lo) / 8)
        (by rw [h1.1]; omega) (by rw [h1.1]; omega) (by rw [h1.1]; omega)
      have h3 := medianOfThree_post
        (medianOfThree
          (medianOfThree d lo (lo + (hi - lo) / 8) (lo + 2 * ((hi - lo) / 8)))
          ((lo + hi) / 2) ((lo + hi) / 2 - (hi - lo) / 8) ((lo + hi) / 2 + (hi - lo) / 8))
        (hi - 1) (hi - 1 - (hi - lo) / 8) (hi - 1 - 2 * ((hi - lo) / 8))
        (by rw [h2.1, h1.1]; omega) (by rw [h2.1, h1.1]; omega) (by rw [h2.1, h1.1]; omega)
      refine ⟨(h3.1.trans h2.1).trans h1.1, (h3.2.1.trans h2.2.1).trans h1.2.1, ?_⟩
      intro i h
      rw [h3.2.2 i (by omega) (by omega) (by omega), h2.2.2 i (by omega) (by omega) (by omega)]
      exact h1.2.2 i (by omega) (by omega) (by omega)
    · rw [if_neg h40]
      exact ⟨rfl, List.Perm.refl d, fun i _ => rfl⟩
  have PM := medianOfThree_post d9 lo ((lo + hi) / 2) (hi - 1)
    (by rw [P9.1]; omega) (by rw [P9.1]; omega) (by rw [P9.1]; omega)
  have PMord := medianOfThree_order d9 lo ((lo + hi) / 2) (hi - 1)
    (by rw [P9.1]; omega) (by rw [P9.1]; omega) (by rw [P9.1]; omega)
    (by omega) (by omega) (by omega)
  rw [← hdM] at PM PMord
  have hdMlen : dM.length = d.length := PM.1.trans P9.1
  have hdMframe : ∀ i, i < lo ∨ hi ≤ i → dM[i]? = d[i]? := by
    intro i h
    rw [PM.2.2 i (by omega) (by omega) (by omega)]
    exact P9.2.2 i h
  obtain ⟨pv, hpvdef⟩ : ∃ p : Command, p = getC dM lo := ⟨_, rfl⟩
  have hOrdHi : (getC dM (hi - 1)).calls ≤ pv.calls := by
    rw [hpvdef]
    exact PMord.2
  have hA := dpScanA_post dM (hi - 1) lo (hi - 1 + 1) (lo + 1) (by omega)
  rw [← ha1] at hA
  have hAub : a1 ≤ hi - 1 := by
    have h1 := hA.2.1
    omega
  have hMain := dpMainLoop_post lo hi pv (hi - 1 + 1) dM a1 (hi - 1)
    (by omega) (by omega) hA.1 (by omega) (by omega) (by omega) (by omega)
    (by rw [hpvdef])
    (by
      intro i h1 h2
      have := (hA.2.2.1 i h1 h2).2
      simp only [revByScoreLess, decide_eq_true_eq] at this
      rw [hpvdef]
      omega)
    (by
      intro j h1 h2
      exfalso
      omega)
  rw [← hR0] at hMain
  obtain ⟨r1, r2, r3, r4, r5, r6, r7, r8, r9, r10, r11⟩ := hMain
  have hR0len : R0.1.length = d.length := r1.trans hdMlen
  have hR0frame : ∀ i, i < lo ∨ hi ≤ i → R0.1[i]? = d[i]? := by
    intro i h
    rw [r3 i (by omega)]
    exact hdMframe i h
  have hHi1 : (getC R0.1 (hi - 1)).calls ≤ pv.calls := by
    rw [getC_frame R0.1 dM (hi - 1) (r3 (hi - 1) (Or.inr (le_refl (hi - 1))))]
    exact hOrdHi
  have hbc : R0.2.1 = R0.2.2 ∨ (R0.2.1 = R0.2.2 + 1 ∧ R0.2.2 = hi - 1) := by
    by_cases h : R0.2.1 = R0.2.2
    · exact Or.inl h
    · right
      have hb : R0.2.1 = R0.2.2 + 1 := by omega
      refine ⟨hb, ?_⟩
      by_contra hc
      have h1 := r10 R0.2.2 r7 (by omega)
      have h2 := r11 R0.2.2 (le_refl R0.2.2) (by omega)
      omega
  have PT : T.1.length = R0.1.length ∧ List.Perm T.1 R0.1 ∧
      (∀ i, i < lo + 1 ∨ hi ≤ i → T.1[i]? = R0.1[i]?) ∧
      lo + 1 ≤ T.2.1 ∧ T.2.1 ≤ T.2.2.1 + 1 ∧ T.2.1 ≤ hi ∧
      lo + 1 ≤ T.2.2.1 ∧ T.2.2.1 ≤ hi ∧
      getC T.1 lo = pv ∧
      (∀ i, lo + 1 ≤ i → i < T.2.1 → pv.calls ≤ (getC T.1 i).calls) ∧
      (∀ j, T.2.1 ≤ j → j < T.2.2.1 → (getC T.1 j).calls = pv.calls) ∧
      (∀ j, T.2.2.1 ≤ j → j < hi → (getC T.1 j).calls ≤ pv.calls) ∧
      (2 ≤ T.2.2.2 → T.2.1 < T.2.2.1) ∧
      (hi - R0.2.2 < 5 → T = (R0.1, R0.2.1, R0.2.2, 0)) := by
    rw [hTdef]
    by_cases hTD : ((!decide (hi - R0.2.2 < 5)) && decide (hi - R0.2.2 < (hi - lo) / 4)) = true
    · rw [if_pos hTD]
      simp only [Bool.and_eq_true, Bool.not_eq_true', decide_eq_false_iff_not,
        decide_eq_true_eq] at hTD
      have hD := dpDups_post R0.1 lo hi ((lo + hi) / 2) R0.2.1 R0.2.2 pv
        (by rw [hR0len]; omega) hlo12 rfl r4 r5 (by omega) hTD.2 r9 r10 r11 hHi1
      obtain ⟨q1, q2, q3, q4, q5, q6, q7, q8, q9, q10, q11, q12⟩ := hD
      refine ⟨q1, q2, q3, q4, by omega, by omega, by omega, by omega, q8, q9, q10, q11,
        q12, ?_⟩
      intro h
      exfalso
      exact hTD.1 h
    · rw [if_neg hTD]
      refine ⟨rfl, List.Perm.refl R0.1, fun i _ => rfl, r6, ?_, ?_, ?_, ?_, r9, r10, ?_,
        ?_, ?_, fun _ => rfl⟩
      · show R0.2.1 ≤ R0.2.2 + 1
        omega
      · show R0.2.1 ≤ hi
        omega
      · show lo + 1 ≤ R0.2.2
        omega
      · show R0.2.2 ≤ hi
        omega
      · intro j h1 h2
        have h1' : R0.2.1 ≤ j := h1
        have h2' : j < R0.2.2 := h2
        exfalso
        omega
      · intro j h1 h2
        show (getC R0.1 j).calls ≤ pv.calls
        have h1' : R0.2.2 ≤ j := h1
        by_cases hjh : j = hi - 1
        · rw [hjh]
          exact hHi1
        · have := r11 j h1' (by omega)
          omega
      · intro h
        have h' : (0 : Nat) ≥ 2 := h
        exfalso
        omega
  obtain ⟨pa, pb, pc, pd, pn, pe, pf2, pg2, ph, pi', pj, pk, pl, pm5⟩ := PT
  have hT1len : T.1.length = d.length := pa.trans hR0len
  have hT1perm : List.Perm T.1 d := pb.trans (r2.trans (PM.2.1.trans P9.2.1))
  have hT1frame : ∀ i, i < lo ∨ hi ≤ i → T.1[i]? = d[i]? := by
    intro i h
    rw [pc i (by omega)]
    exact hR0frame i h
  have PF : F.1.length = d.length ∧ List.Perm F.1 d ∧
      (∀ i, i < lo ∨ hi ≤ i → F.1[i]? = d[i]?) ∧
      lo + 1 ≤ F.2 ∧ F.2 ≤ T.2.2.1 + 1 ∧ F.2 ≤ hi ∧
      getC F.1 lo = pv ∧
      (∀ i, lo + 1 ≤ i → i < F.2 → pv.calls ≤ (getC F.1 i).calls) ∧
      (∀ j, F.2 ≤ j → j < T.2.2.1 → (getC F.1 j).calls = pv.calls) ∧
      (∀ j, T.2.2.1 ≤ j → F.2 ≤ j → j < hi → (getC F.1 j).calls ≤ pv.calls) := by
    rw [hF]
    by_cases hProt : (decide (hi - R0.2.2 < 5) ||
        ((!decide (hi - R0.2.2 < 5)) && decide (hi - R0.2.2 < (hi - lo) / 4)) &&
          decide (T.2.2.2 > 1)) = true
    · rw [if_pos hProt]
      simp only [Bool.or_eq_true, Bool.and_eq_true, Bool.not_eq_true',
        decide_eq_false_iff_not, decide_eq_true_eq] at hProt
      have hAB : T.2.1 ≤ T.2.2.1 ∨ (T.2.1 = hi ∧ T.2.2.1 = hi - 1) := by
        rcases hProt with hp | hp
        · have hm5 := pm5 hp
          have e1 : T.2.1 = R0.2.1 := by rw [hm5]
          have e2 : T.2.2.1 = R0.2.2 := by rw [hm5]
          rcases hbc with hb | ⟨hb, hc⟩
          · left
            omega
          · right
            constructor
            · omega
            · omega
        · left
          exact le_of_lt (pl (by omega))
      rcases hAB with hcA | ⟨hB1, hB2⟩
      · have happ := dpProtLoop_post lo hi T.2.2.1 pv (T.2.1 + 1) T.1 a1 T.2.1
          (by rw [hT1len]; omega) hA.1 pd pe (by omega) ph pi' pj
        obtain ⟨w1, w2, w3, w4, w5, w6, w7, w8⟩ := happ
        refine ⟨w1.trans hT1len, w2.trans hT1perm, ?_, w4, by omega, by omega, w6, w7,
          ?_, ?_⟩
        · intro i h
          rw [w3 i (by omega)]
          exact hT1frame i h
        · intro j h1 h2
          exact w8 j h1 h2
        · intro j h1 h2 h3
          rw [getC_frame _ T.1 j (w3 j (by omega))]
          exact pk j h1 h3
      · have happ := dpProtLoop_post lo hi hi pv (T.2.1 + 1) T.1 a1 T.2.1
          (by rw [hT1len]; omega) hA.1 pd pe (by omega) ph pi'
          (by
            intro j h1 h2
            exfalso
            rw [hB1] at h1
            omega)
        obtain ⟨w1, w2, w3, w4, w5, w6, w7, w8⟩ := happ
        refine ⟨w1.trans hT1len, w2.trans hT1perm, ?_, w4, by omega, by omega, w6, w7,
          ?_, ?_⟩
        · intro i h
          rw [w3 i (by omega)]
          exact hT1frame i h
        · intro j h1 h2
          exact w8 j h1 (by omega)
        · intro j h1 h2 h3
          have := w8 j h2 h3
          omega
    · rw [if_neg hProt]
      refine ⟨hT1len, hT1perm, hT1frame, pd, ?_, ?_, ph, pi', pj, ?_⟩
      · show T.2.1 ≤ T.2.2.1 + 1
        exact pn
      · show T.2.1 ≤ hi
        exact pe
      · intro j h1 h2 h3
        exact pk j h1 h3
  obtain ⟨fa, fb, fc, fd, fe, ff, fg, fh, fi', fj⟩ := PF
  have hlolen : lo < F.1.length := by rw [fa]; omega
  have hf2len : F.2 - 1 < F.1.length := by rw [fa]; omega
  have gswF : ∀ i, getC (swapL F.1 lo (F.2 - 1)) i =
      if i = F.2 - 1 then getC F.1 lo else if i = lo then getC F.1 (F.2 - 1) else getC F.1 i :=
    fun i => getC_swapL F.1 lo (F.2 - 1) i hlolen hf2len
  rw [hdp]
  refine ⟨pv, ?_, ?_, ?_, show lo ≤ F.2 - 1 by omega, show F.2 - 1 ≤ T.2.2.1 by omega,
    show T.2.2.1 ≤ hi by omega, show F.2 - 1 < hi by omega, show lo < T.2.2.1 by omega,
    ?_, ?_, ?_⟩
  · show (swapL F.1 lo (F.2 - 1)).length = d.length
    rw [length_swapL]
    exact fa
  · show List.Perm (swapL F.1 lo (F.2 - 1)) d
    exact (swapL_perm F.1 lo (F.2 - 1) hlolen hf2len).trans fb
  · intro i h
    show (swapL F.1 lo (F.2 - 1))[i]? = d[i]?
    rw [getElem?_swapL_frame F.1 lo (F.2 - 1) i (by omega) (by omega)]
    exact fc i h
  · intro i h1 h2
    show pv.calls ≤ (getC (swapL F.1 lo (F.2 - 1)) i).calls
    have h2' : i < F.2 - 1 := h2
    rw [gswF i, if_neg (show ¬ i = F.2 - 1 by omega)]
    by_cases hil : i = lo
    · rw [if_pos hil]
      exact fh (F.2 - 1) (by omega) (by omega)
    · rw [if_neg hil]
      exact fh i (by omega) (by omega)
  · intro j h1 h2
    show (getC (swapL F.1 lo (F.2 - 1)) j).calls = pv.calls
    have h1' : F.2 - 1 ≤ j := h1
    have h2' : j < T.2.2.1 := h2
    rw [gswF j]
    by_cases hjf : j = F.2 - 1
    · rw [if_pos hjf, fg]
    · rw [if_neg hjf, if_neg (show ¬ j = lo by omega)]
      exact fi' j (by omega) h2'
  · intro j h1 h2
    show (getC (swapL F.1 lo (F.2 - 1)) j).calls ≤ pv.calls
    have h1' : T.2.2.1 ≤ j := h1
    rw [gswF j]
    by_cases hjf : j = F.2 - 1
    · rw [if_pos hjf, fg]
    · rw [if_neg hjf, if_neg (show ¬ j = lo by omega)]
      exact fj j h1' (by omega) h2

theorem seg_bound_transfer (dOld dNew : Commands) (a b : Nat) (P : Command → Prop)
    (hb : b ≤ dOld.length) (hlen : dNew.length = dOld.length)
    (hperm : List.Perm dNew dOld)
    (hframe : ∀ m, m < a ∨ b ≤ m → dNew[m]? = dOld[m]?)
    (hP : ∀ k, a ≤ k → k < b → P (getC dOld k)) :
    ∀ i, a ≤ i → i < b → P (getC dNew i) := by
  intro i h1 h2
  have hmem : getC dNew i ∈ seg dNew a b :=
    (mem_seg_iff dNew a b (by omega) _).mpr ⟨i, h1, h2, rfl⟩
  have hperm2 := seg_perm_of_frame dOld dNew a b hperm hframe
  have hmem2 : getC dNew i ∈ seg dOld a b := hperm2.mem_iff.mp hmem
  obtain ⟨k, hk1, hk2, hk3⟩ := (mem_seg_iff dOld a b hb _).mp hmem2
  rw [← hk3]
  exact hP k hk1 hk2

theorem quickSortGo_post : ∀ (fuel : Nat) (d : Commands) (a b md : Nat),
    b ≤ d.length → b - a < fuel →
    (quickSortGo fuel d a b md).length = d.length ∧
    List.Perm (quickSortGo fuel d a b md) d ∧
    (∀ m, m < a ∨ b ≤ m → (quickSortGo fuel d a b md)[m]? = d[m]?) ∧
    SortedSeg (quickSortGo fuel d a b md) a b := by
  intro fuel
  induction fuel with
  | zero =>
    intro d a b md _ hfuel
    exact absurd hfuel (by omega)
  | succ f ih =>
    intro d a b md hblen hfuel
    by_cases h12 : b - a > 12
    · by_cases hmd : md = 0
      · have hstep : quickSortGo (f + 1) d a b md = heapSortGo d a b := by
          simp only [quickSortGo]
          rw [if_pos h12, if_pos hmd]
        rw [hstep]
        exact heapSortGo_post d a b (by omega) hblen
      · obtain ⟨P, hP⟩ : ∃ p : Commands × Nat × Nat, p = doPivotGo d a b := ⟨_, rfl⟩
        have hDP := doPivotGo_post d a b hblen (by omega)
        rw [← hP] at hDP
        obtain ⟨pv, g1, g2, g3, g4, g5, g6, g7, g8, gL, gM, gR⟩ := hDP
        have hstep : quickSortGo (f + 1) d a b md =
            (if P.2.1 - a < b - P.2.2 then
              quickSortGo f (quickSortGo f P.1 a P.2.1 (md - 1)) P.2.2 b (md - 1)
            else
              quickSortGo f (quickSortGo f P.1 P.2.2 b (md - 1)) a P.2.1 (md - 1)) := by
          simp only [quickSortGo]
          rw [if_pos h12, if_neg hmd, hP]
        rw [hstep]
        by_cases hside : P.2.1 - a < b - P.2.2
        · rw [if_pos hside]
          have hrec1 := ih P.1 a P.2.1 (md - 1) (by rw [g1]; omega) (by omega)
          obtain ⟨e1len, e1perm, e1frame, e1sorted⟩ := hrec1
          have hrec2 := ih (quickSortGo f P.1 a P.2.1 (md - 1)) P.2.2 b (md - 1)
            (by rw [e1len, g1]; exact hblen) (by omega)
          obtain ⟨e2len, e2perm, e2frame, e2sorted⟩ := hrec2
          refine ⟨e2len.trans (e1len.trans g1), e2perm.trans (e1perm.trans g2), ?_, ?_⟩
          · intro m hm
            rw [e2frame m (by omega), e1frame m (by omega)]
            exact g3 m hm
          · have vL : ∀ i, a ≤ i → i < P.2.1 →
                pv.calls ≤ (getC (quickSortGo f (quickSortGo f P.1 a P.2.1 (md - 1))
                  P.2.2 b (md - 1)) i).calls := by
              intro i h1 h2
              rw [getC_frame _ (quickSortGo f P.1 a P.2.1 (md - 1)) i
                (e2frame i (Or.inl (by omega)))]
              exact seg_bound_transfer P.1 (quickSortGo f P.1 a P.2.1 (md - 1)) a P.2.1
                (fun x => pv.calls ≤ x.calls) (by rw [g1]; omega) e1len e1perm e1frame
                gL i h1 h2
            have vM : ∀ i, P.2.1 ≤ i → i < P.2.2 →
                (getC (quickSortGo f (quickSortGo f P.1 a P.2.1 (md - 1))
                  P.2.2 b (md - 1)) i).calls = pv.calls := by
              intro i h1 h2
              rw [getC_frame _ (quickSortGo f P.1 a P.2.1 (md - 1)) i
                (e2frame i (Or.inl (by omega)))]
              rw [getC_frame _ P.1 i (e1frame i (Or.inr (by omega)))]
              exact gM i h1 h2
            have vR : ∀ i, P.2.2 ≤ i → i < b →
                (getC (quickSortGo f (quickSortGo f P.1 a P.2.1 (md - 1))
                  P.2.2 b (md - 1)) i).calls ≤ pv.calls := by
              refine seg_bound_transfer (quickSortGo f P.1 a P.2.1 (md - 1)) _ P.2.2 b
                (fun x => x.calls ≤ pv.calls) (by rw [e1len, g1]; exact hblen) e2len
                e2perm e2frame ?_
              intro k hk1 hk2
              rw [getC_frame _ P.1 k (e1frame k (Or.inr (by omega)))]
              exact gR k hk1 hk2
            have hub : ∀ j, P.2.1 ≤ j → j < b →
                (getC (quickSortGo f (quickSortGo f P.1 a P.2.1 (md - 1))
                  P.2.2 b (md - 1)) j).calls ≤ pv.calls := by
              intro j h1 h2
              by_cases hj : j < P.2.2
              · have := vM j h1 hj
                omega
              · exact vR j (by omega) h2
            have s1 : SortedSeg (quickSortGo f (quickSortGo f P.1 a P.2.1 (md - 1))
                P.2.2 b (md - 1)) a P.2.1 := by
              refine sortedSeg_of_eq _ _ a P.2.1 e1sorted ?_
              intro m hm1 hm2
              exact getC_frame _ _ m (e2frame m (Or.inl (by omega)))
            intro i hai hib
            by_cases hA : i + 1 < P.2.1
            · exact s1 i hai hA
            · by_cases hB : i < P.2.1
              · have h1 := vL i hai hB
                have h2 := hub (i + 1) (by omega) hib
                omega
              · by_cases hC : i < P.2.2
                · have h1 := vM i (by omega) hC
                  have h2 := hub (i + 1) (by omega) hib
                  omega
                · exact e2sorted i (by omega) hib
        · rw [if_neg hside]
          have hrec1 := ih P.1 P.2.2 b (md - 1) (by rw [g1]; exact hblen) (by omega)
          obtain ⟨e1len, e1perm, e1frame, e1sorted⟩ := hrec1
          have hrec2 := ih (quickSortGo f P.1 P.2.2 b (md - 1)) a P.2.1 (md - 1)
            (by rw [e1len, g1]; omega) (by omega)
          obtain ⟨e2len, e2perm, e2frame, e2sorted⟩ := hrec2
          refine ⟨e2len.trans (e1len.trans g1), e2perm.trans (e1perm.trans g2), ?_, ?_⟩
          · intro m hm
            rw [e2frame m (by omega), e1frame m (by omega)]
            exact g3 m hm
          · have vL : ∀ i, a ≤ i → i < P.2.1 →
                pv.calls ≤ (getC (quickSortGo f (quickSortGo f P.1 P.2.2 b (md - 1))
                  a P.2.1 (md - 1)) i).calls := by
              refine seg_bound_transfer (quickSortGo f P.1 P.2.2 b (md - 1)) _ a P.2.1
                (fun x => pv.calls ≤ x.calls) (by rw [e1len, g1]; omega) e2len
                e2perm e2frame ?_
              intro k hk1 hk2
              rw [getC_frame _ P.1 k (e1frame k (Or.inl (by omega)))]
              exact gL k hk1 hk2
            have vM : ∀ i, P.2.1 ≤ i → i < P.2.2 →
                (getC (quickSortGo f (quickSortGo f P.1 P.2.2 b (md - 1))
                  a P.2.1 (md - 1)) i).calls = pv.calls := by
              intro i h1 h2
              rw [getC_frame _ (quickSortGo f P.1 P.2.2 b (md - 1)) i
                (e2frame i (Or.inr (by omega)))]
              rw [getC_frame _ P.1 i (e1frame i (Or.inl (by omega)))]
              exact gM i h1 h2
            have vR : ∀ i, P.2.2 ≤ i → i < b →
                (getC (quickSortGo f (quickSortGo f P.1 P.2.2 b (md - 1))
                  a P.2.1 (md - 1)) i).calls ≤ pv.calls := by
              intro i h1 h2
              rw [getC_frame _ (quickSortGo f P.1 P.2.2 b (md - 1)) i
                (e2frame i (Or.inr (by omega)))]
              exact seg_bound_transfer P.1 (quickSortGo f P.1 P.2.2 b (md - 1)) P.2.2 b
                (fun x => x.calls ≤ pv.calls) (by rw [g1]; exact hblen) e1len e1perm
                e1frame gR i h1 h2
            have hub : ∀ j, P.2.1 ≤ j → j < b →
                (getC (quickSortGo f (quickSortGo f P.1 P.2.2 b (md - 1))
                  a P.2.1 (md - 1)) j).calls ≤ pv.calls := by
              intro j h1 h2
              by_cases hj : j < P.2.2
              · have := vM j h1 hj
                omega
              · exact vR j (by omega) h2
            have s3 : SortedSeg (quickSortGo f (quickSortGo f P.1 P.2.2 b (md - 1))
                a P.2.1 (md - 1)) P.2.2 b := by
              refine sortedSeg_of_eq _ _ P.2.2 b e1sorted ?_
              intro m hm1 hm2
              exact getC_frame _ _ m (e2frame m (Or.inr (by omega)))
            intro i hai hib
            by_cases hA : i + 1 < P.2.1
            · exact e2sorted i hai hA
            · by_cases hB : i < P.2.1
              · have h1 := vL i hai hB
                have h2 := hub (i + 1) (by omega) hib
                omega
              · by_cases hC : i < P.2.2
                · have h1 := vM i (by omega) hC
                  have h2 := hub (i + 1) (by omega) hib
                  omega
                · exact s3 i (by omega) hib
    · by_cases h1b : b - a > 1
      · have hstep : quickSortGo (f + 1) d a b md = insertionSortGo (shellPassGo d a b) a b := by
          simp only [quickSortGo]
          rw [if_neg h12, if_pos h1b]
        rw [hstep]
        have hsp := shellPassGo_post d a b hblen
        have hins := insertionSortGo_post (shellPassGo d a b) a b (by rw [hsp.1]; exact hblen)
        refine ⟨hins.1.trans hsp.1, hins.2.1.trans hsp.2.1, ?_, hins.2.2.2⟩
        intro m hm
        rw [hins.2.2.1 m hm]
        exact hsp.2.2 m hm
      · have hstep : quickSortGo (f + 1) d a b md = d := by
          simp only [quickSortGo]
          rw [if_neg h12, if_neg h1b]
        rw [hstep]
        exact ⟨rfl, List.Perm.refl d, fun m _ => rfl,
          sortedSeg_trivial d a b (by omega)⟩

theorem getC_lt (d : Commands) (i : Nat) (h : i < d.length) : getC d i = d[i] := by
  rw [getC_eq, List.getElem?_eq_getElem h]
  rfl

theorem commandSortSort_post (l : Commands) :
    (commandSortSort l).length = l.length ∧
    List.Perm (commandSortSort l) l ∧
    List.Sorted (fun x y : Command => y.calls ≤ x.calls) (commandSortSort l) := by
  have heq : commandSortSort l =
      quickSortGo (l.length + 1) l 0 l.length (goMaxDepth l.length) := rfl
  have h := quickSortGo_post (l.length + 1) l 0 l.length (goMaxDepth l.length)
    (le_refl l.length) (by omega)
  obtain ⟨h1, h2, _, h4⟩ := h
  rw [heq]
  refine ⟨h1, h2, ?_⟩
  show List.Pairwise (fun x y : Command => y.calls ≤ x.calls) _
  rw [List.pairwise_iff_getElem]
  intro i j hi hj hij
  have hj' : j < l.length := by rw [← h1]; exact hj
  have hp := sortedSeg_pairwise _ 0 l.length h4 i j (Nat.zero_le i) (by omega) hj'
  rw [getC_lt _ i hi, getC_lt _ j hj] at hp
  exact hp

/-- C3 (corrected): for a history file whose lines all parse, `read`
returns the parsed commands reordered into `Calls`-descending order — a
permutation of the parsed sequence, sorted by `Calls` descending.  The
sort is `sort.Sort` (introsort), which is NOT stable, so commands with
equal `Calls` need not keep their original file order — see
`claim_C3_counterexample`, where the two `Calls = 2` records come back
in reversed file order.  The spec's concrete example does hold: `read`
on `"3\tvim\n1\tnano\n"` yields `[{vim,3},{nano,1}]`. -/
theorem claim_C3 (content : String) (cmds : Commands)
    (h : (linesOf content).mapM parseHistLine = Except.ok cmds) :
    readHistory (some content) = .ok (commandSortSort cmds) ∧
    List.Perm (commandSortSort cmds) cmds ∧
    List.Sorted (fun x y : Command => y.calls ≤ x.calls) (commandSortSort cmds) ∧
    readHistory (some "3\tvim\n1\tnano\n") = .ok [⟨"vim", 3⟩, ⟨"nano", 1⟩] := by
  have hc := commandSortSort_post cmds
  refine ⟨?_, hc.2.1, hc.2.2, by rfl⟩
  rw [readHistory_eq, h]

/-- Witness for `claim_C3` at the spec's own example file
`"3\tvim\n1\tnano\n"`. -/
theorem claim_C3_witness :
    (linesOf "3\tvim\n1\tnano\n").mapM parseHistLine =
      Except.ok [⟨"vim", 3⟩, ⟨"nano", 1⟩] ∧
    (readHistory (some "3\tvim\n1\tnano\n") =
        .ok (commandSortSort [⟨"vim", 3⟩, ⟨"nano", 1⟩]) ∧
      List.Perm (commandSortSort [⟨"vim", 3⟩, ⟨"nano", 1⟩]) [⟨"vim", 3⟩, ⟨"nano", 1⟩] ∧
      List.Sorted (fun x y : Command => y.calls ≤ x.calls)
        (commandSortSort [⟨"vim", 3⟩, ⟨"nano", 1⟩]) ∧
      readHistory (some "3\tvim\n1\tnano\n") = .ok [⟨"vim", 3⟩, ⟨"nano", 1⟩]) :=
  ⟨by rfl, claim_C3 "3\tvim\n1\tnano\n" [⟨"vim", 3⟩, ⟨"nano", 1⟩] (by rfl)⟩

/-- C3 counterexample to the claim's tie-stability part: on the
seven-line file `tieFile` every line parses, yet `read` returns the two
`Calls = 2` records `a` and `b` in the order `b, a` — the reverse of
their file order — whereas the spec's stable descending sort keeps
`a, b`.  The sixth element of the result differs, so `read` is not the
stable sort the spec describes. -/
theorem claim_C3_counterexample :
    (linesOf tieFile).mapM parseHistLine =
      Except.ok [⟨"c", 1⟩, ⟨"x1", 3⟩, ⟨"x2", 3⟩, ⟨"a", 2⟩, ⟨"x3", 3⟩, ⟨"x4", 3⟩,
        ⟨"b", 2⟩] ∧
    readHistory (some tieFile) =
      .ok [⟨"x1", 3⟩, ⟨"x2", 3⟩, ⟨"x3", 3⟩, ⟨"x4", 3⟩, ⟨"b", 2⟩, ⟨"a", 2⟩, ⟨"c", 1⟩] ∧
    specStableSortDesc [⟨"c", 1⟩, ⟨"x1", 3⟩, ⟨"x2", 3⟩, ⟨"a", 2⟩, ⟨"x3", 3⟩, ⟨"x4", 3⟩,
        ⟨"b", 2⟩] =
      [⟨"x1", 3⟩, ⟨"x2", 3⟩, ⟨"x3", 3⟩, ⟨"x4", 3⟩, ⟨"a", 2⟩, ⟨"b", 2⟩, ⟨"c", 1⟩] ∧
    readHistory (some tieFile) ≠
      .ok (specStableSortDesc [⟨"c", 1⟩, ⟨"x1", 3⟩, ⟨"x2", 3⟩, ⟨"a", 2⟩, ⟨"x3", 3⟩,
        ⟨"x4", 3⟩, ⟨"b", 2⟩]) := by
  refine ⟨by rfl, by rfl, by rfl, ?_⟩
  intro hcon
  have h1 : readHistory (some tieFile) =
      Except.ok [⟨"x1", 3⟩, ⟨"x2", 3⟩, ⟨"x3", 3⟩, ⟨"x4", 3⟩, ⟨"b", 2⟩, ⟨"a", 2⟩,
        ⟨"c", 1⟩] := by rfl
  rw [h1] at hcon
  exact absurd (Except.ok.inj hcon) (by decide)

end Yegonesh
